import Mathlib

/-!
A verification development for the `panic::RbTree` red-black tree of
`src/src/tree.hpp` and the `sjtu::map` adapter of `src/src/map.hpp`.

The pointer-based C++ structure is embedded as an inductive tree whose
nodes carry the allocation identity (`id : Nat`, standing for the heap
address of the node), its color, and its value.  The sentinel "end node"
of the source is kept implicit: the `root` field of `RbTree` below is
the end node's left child, and a zipper context `Ctx` reaching `[]`
means the focused node's parent is the end node.  Parent-pointer
navigation of the source is transcribed as navigation on the zipper.
-/

namespace FakeStl

/-- Node colors, `Node::Type { kRed, kBlack }` in the source. -/
inductive Color where
  | red
  | black
deriving DecidableEq, Repr

/-- Which side a node hangs from its parent (`isLeft` in the source). -/
inductive Side where
  | l
  | r
deriving DecidableEq, Repr

/-- The opposite side, `TagPair::inverse` in the source. -/
def Side.other : Side → Side
  | .l => .r
  | .r => .l

/-- A tree node graph: `nil` is the null pointer, `node id color val l r`
is a heap node at address `id` holding `val`. -/
inductive RNode (α : Type) where
  | nil
  | node (id : Nat) (color : Color) (val : α) (l r : RNode α)
deriving DecidableEq, Repr

namespace RNode

variable {α : Type}

def isNil : RNode α → Bool
  | .nil => true
  | .node _ _ _ _ _ => false

def left : RNode α → RNode α
  | .nil => .nil
  | .node _ _ _ l _ => l

def right : RNode α → RNode α
  | .nil => .nil
  | .node _ _ _ _ r => r

def idOf : RNode α → Nat
  | .nil => 0
  | .node i _ _ _ _ => i

def colorOf : RNode α → Color
  | .nil => .black
  | .node _ c _ _ _ => c

/-- Child on a given side. -/
def childS : Side → RNode α → RNode α
  | _, .nil => .nil
  | .l, .node _ _ _ l _ => l
  | .r, .node _ _ _ _ r => r

/-- In-order traversal, as (address, value) pairs. -/
def inorder : RNode α → List (Nat × α)
  | .nil => []
  | .node i _ v l r => inorder l ++ (i, v) :: inorder r

/-- `Node::min`: descend left links. -/
def minN : RNode α → RNode α
  | .nil => .nil
  | .node i c v l r =>
    match l with
    | .nil => .node i c v .nil r
    | .node j d w a b => minN (.node j d w a b)

/-- `Node::max`: descend right links. -/
def maxN : RNode α → RNode α
  | .nil => .nil
  | .node i c v l r =>
    match r with
    | .nil => .node i c v l .nil
    | .node j d w a b => maxN (.node j d w a b)

end RNode

/-- Build a node whose child on side `d` is `a` and on the other side is `b`. -/
def mkNodeS {α : Type} : Side → Nat → Color → α → RNode α → RNode α → RNode α
  | .l, i, c, v, a, b => .node i c v a b
  | .r, i, c, v, a, b => .node i c v b a

/-- Recolor the root of a subtree (e.g. `root_()->type = kBlack`). -/
def setRootColor {α : Type} (c : Color) : RNode α → RNode α
  | .nil => .nil
  | .node i _ v l r => .node i c v l r

/-- One parent frame of a zipper: the focus hangs from a node with the
given address/color/value on side `side`; `sib` is the parent's other
subtree. -/
structure Frame (α : Type) where
  side : Side
  id : Nat
  color : Color
  val : α
  sib : RNode α
deriving DecidableEq, Repr

/-- A zipper context: the path of parent frames from a focus up to the
end node.  The head is the immediate parent; `[]` means the focus is the
real root (the end node's left child). -/
abbrev Ctx (α : Type) := List (Frame α)

/-- Rebuild the parent node of a focus from a frame. -/
def mkF {α : Type} (f : Frame α) (t : RNode α) : RNode α :=
  mkNodeS f.side f.id f.color f.val t f.sib

/-- Plug a subtree back into a context, rebuilding the whole real tree. -/
def plug {α : Type} : Ctx α → RNode α → RNode α
  | [], t => t
  | f :: rest, t => plug rest (mkF f t)

/-- A node pointer as seen by iterators: either the end node or a real
node's address. -/
inductive Loc where
  | endp
  | ptr (id : Nat)
deriving DecidableEq, Repr

/-- `iterator` / `const_iterator`: a node pointer plus the address of the
owning tree (`home_`). -/
structure Iter where
  node : Loc
  home : Nat
deriving DecidableEq, Repr

/-- The error raised on iterator misuse (`sjtu::invalid_iterator`). -/
inductive TreeErr where
  | invalidIterator
deriving DecidableEq, Repr

/-- The tree object: `root` is the end node's left child, `leftmost` the
cached minimum pointer (`leftmost_`), `size` the element count, and
`nextId` the allocator's next fresh address. -/
structure RbTree (α : Type) where
  root : RNode α
  leftmost : Loc
  size : Nat
  nextId : Nat
deriving DecidableEq, Repr

/-- `init_()`: the freshly constructed empty tree (`leftmost_ = endNode_`). -/
def RbTree.mk0 {α : Type} : RbTree α :=
  { root := .nil, leftmost := .endp, size := 0, nextId := 0 }

/-- `clear()`: destroy all real nodes and reinitialize. -/
def RbTree.clearT {α : Type} (t : RbTree α) : RbTree α :=
  { root := .nil, leftmost := .endp, size := 0, nextId := t.nextId }

section Ops

variable {α : Type}

/-- `Node::emplace`: probe down by the two-comparison trichotomy; report
a duplicate's address (`Sum.inl`), or the context at which the fresh red
leaf (address `newId`) was attached (`Sum.inr`).  The source never calls
this on a null node. -/
def emplaceN (cmp : α → α → Bool) (v : α) (newId : Nat) :
    RNode α → Ctx α → Sum Nat (Ctx α)
  | .nil, _ => Sum.inl newId
  | .node i c x l r, ctx =>
    if !(cmp v x) && !(cmp x v) then Sum.inl i
    else if cmp v x then
      match l with
      | .nil => Sum.inr (⟨.l, i, c, x, r⟩ :: ctx)
      | .node j d w a b => emplaceN cmp v newId (.node j d w a b) (⟨.l, i, c, x, r⟩ :: ctx)
    else
      match r with
      | .nil => Sum.inr (⟨.r, i, c, x, l⟩ :: ctx)
      | .node j d w a b => emplaceN cmp v newId (.node j d w a b) (⟨.r, i, c, x, l⟩ :: ctx)

/-- The rotation cases B and C of `fixupInsert_` (black or absent
uncle), rebuilding the grandparent's subtree: a zig-zag first rotates at
the parent toward the parent's side, then both cases recolor and rotate
at the grandparent away from it. -/
def insRebuild (pf gf : Frame α) (n : RNode α) : RNode α :=
  let d := gf.side
  if pf.side = d then
    mkNodeS d pf.id Color.black pf.val n
      (mkNodeS d gf.id Color.red gf.val pf.sib gf.sib)
  else
    match n with
    | RNode.nil => mkF gf (mkF pf RNode.nil)
    | RNode.node ni _ nv _ _ =>
      mkNodeS d ni Color.black nv
        (mkNodeS d pf.id pf.color pf.val pf.sib (RNode.childS d n))
        (mkNodeS d gf.id Color.red gf.val (RNode.childS d.other n) gf.sib)

/-- `RbTree::fixupInsert_`, transcribed on the zipper of the violating
node `n`.  An empty context means `n` is the real root, where the source
returns (its parent is the end node, so either the parent-color test or
the root test fires).  A red parent that is itself the root
(`rest = []`) would make the source rotate at the end node and
dereference a null parent; that state is unreachable because the root of
every reachable tree is black, and the transcription returns the tree
unchanged there. -/
def fixupInsert : RNode α → Ctx α → RNode α
  | n, [] => n
  | n, pf :: rest =>
    if pf.color ≠ Color.red then plug (pf :: rest) n
    else
      match rest with
      | [] => plug [pf] n
      | gf :: rest2 =>
        match gf.sib with
        | RNode.node ui Color.red uv ul ur =>
          let parent' := mkF ⟨pf.side, pf.id, Color.black, pf.val, pf.sib⟩ n
          let gcolor := if rest2.isEmpty then Color.black else Color.red
          let s := mkNodeS gf.side gf.id gcolor gf.val parent'
            (RNode.node ui Color.black uv ul ur)
          fixupInsert s rest2
        | _ => plug rest2 (insRebuild pf gf n)

/-- `nullOrBlack` from `fixupDelete_`. -/
def nullOrBlackB : RNode α → Bool
  | .nil => true
  | .node _ c _ _ _ => decide (c = Color.black)

/-- Outcome of one level of deletion fixup: either the subtree at the
parent's position is fully repaired, or the doubly-black deficit moved
up to the parent's own position. -/
inductive FixRes (α : Type) where
  | done (t : RNode α)
  | up (t : RNode α)

/-- The body of `RbTree::fixupDelete_` from the doubly-black-children
test onward, for a parent subtree `P` whose child on side `d` carries
the deficit.  The sibling (the source's `neighbor`) is `P`'s child on
the other side; the source dereferences it unconditionally, so a null
sibling (unreachable in valid trees) is returned unchanged. -/
def fixupInner (P : RNode α) (d : Side) : FixRes α :=
  match P with
  | .nil => FixRes.done P
  | .node pi pc pv _ _ =>
    let od := d.other
    let dsub := RNode.childS d P
    match RNode.childS od P with
    | .nil => FixRes.done P
    | .node mi mc mv m1 m2 =>
      if nullOrBlackB m1 && nullOrBlackB m2 then
        let p' := mkNodeS d pi pc pv dsub (RNode.node mi Color.red mv m1 m2)
        if pc = Color.red then FixRes.done (setRootColor Color.black p')
        else FixRes.up p'
      else
        let nb := RNode.node mi mc mv m1 m2
        let far := RNode.childS od nb
        let near := RNode.childS d nb
        let result :=
          if nullOrBlackB far then
            match near with
            | RNode.nil => P
            | RNode.node qi _ qv _ _ =>
              mkNodeS d qi pc qv
                (mkNodeS d pi Color.black pv dsub (RNode.childS d near))
                (setRootColor Color.black
                  (mkNodeS d mi Color.red mv (RNode.childS od near) far))
          else
            mkNodeS d mi pc mv
              (mkNodeS d pi Color.black pv dsub near)
              (setRootColor Color.black far)
        FixRes.done result

/-- One full level of `fixupDelete_`: handle the red-sibling case (which
rotates at the parent and then always terminates inside, because the
parent has just been colored red), then the remaining cases. -/
def fixupStep (P : RNode α) (d : Side) : FixRes α :=
  match P with
  | .nil => FixRes.done P
  | .node pi _ pv _ _ =>
    let od := d.other
    let dsub := RNode.childS d P
    match RNode.childS od P with
    | RNode.node ni Color.red nv na nb =>
      let n := RNode.node ni Color.red nv na nb
      let nd := RNode.childS d n
      let nod := RNode.childS od n
      let p' := mkNodeS d pi Color.red pv dsub nd
      match fixupInner p' d with
      | FixRes.done s => FixRes.done (mkNodeS d ni Color.black nv s nod)
      | FixRes.up s => FixRes.done (mkNodeS d ni Color.black nv s nod)
    | _ => fixupInner P d

/-- `RbTree::fixupDelete_`, iterated up the context.  The recursive case
is the doubly-black-children branch with a black non-root parent: the
source recurses on the parent's sibling, i.e. one frame up. -/
def fixupDelete : Ctx α → RNode α → Side → RNode α
  | ctx, P, d =>
    match fixupStep P d with
    | FixRes.done s => plug ctx s
    | FixRes.up s =>
      match ctx with
      | [] => setRootColor Color.black s
      | f :: rest => fixupDelete rest (mkF f s) f.side

/-- The context of the minimum node of a subtree (`Node::min` as a
zipper descent). -/
def minZipC : RNode α → Ctx α → Ctx α
  | .nil, ctx => ctx
  | .node i c v l r, ctx =>
    match l with
    | .nil => ctx
    | .node j d w a b => minZipC (.node j d w a b) (⟨.l, i, c, v, r⟩ :: ctx)

/-- The splice of `delete_`: `y` (of color blackness `ycBlack`, context
`yctx`) is replaced by its only child `childY`; if `y` was black a
deficit appears, absorbed by recoloring `childY` when present and
repaired by `fixupDelete` otherwise.  Returns the new real root. -/
def spliceFix (yctx : Ctx α) (childY : RNode α) (ycBlack : Bool) : RNode α :=
  match yctx with
  | [] =>
    if ycBlack && !childY.isNil then setRootColor Color.black childY else childY
  | f :: rest =>
    if ycBlack then
      if !childY.isNil then plug rest (mkF f (setRootColor Color.black childY))
      else fixupDelete rest (mkF f childY) f.side
    else plug rest (mkF f childY)

/-- Locate the node of address `i`, returning its focus and context. -/
def zipTo (i : Nat) : RNode α → Ctx α → Option (RNode α × Ctx α)
  | .nil, _ => none
  | .node j c v l r, ctx =>
    if j = i then some (.node j c v l r, ctx)
    else
      match zipTo i l (⟨.l, j, c, v, r⟩ :: ctx) with
      | some res => some res
      | none => zipTo i r (⟨.r, j, c, v, l⟩ :: ctx)

/-- Find the subtree rooted at address `i`. -/
def getN : RNode α → Nat → Option (RNode α)
  | .nil, _ => none
  | .node j c v l r, i =>
    if j = i then some (.node j c v l r)
    else
      match getN l i with
      | some s => some s
      | none => getN r i

/-- The tail of `Node::next`: climb while the node is a right child,
then step to the parent (the end node if the climb exhausts the path). -/
def climbNext : Ctx α → Loc
  | [] => Loc.endp
  | f :: rest => if f.side = Side.l then Loc.ptr f.id else climbNext rest

/-- The tail of `Node::prev`: climb while the node is a left child.  An
exhausted path would make the source dereference the end node's null
parent; it is unreachable because `operator--` first checks against
`leftmost_`. -/
def climbPrev : Ctx α → Loc
  | [] => Loc.endp
  | f :: rest => if f.side = Side.l then climbPrev rest else Loc.ptr f.id

/-- `Node::next` on a zipper. -/
def nextZ : RNode α → Ctx α → Loc
  | .nil, _ => Loc.endp
  | .node _ _ _ _ r, ctx =>
    match r with
    | .nil => climbNext ctx
    | .node j d w a b => Loc.ptr (RNode.minN (RNode.node j d w a b)).idOf

/-- `Node::prev` on a zipper. -/
def prevZ : RNode α → Ctx α → Loc
  | .nil, _ => Loc.endp
  | .node _ _ _ l _, ctx =>
    match l with
    | .nil => climbPrev ctx
    | .node j d w a b => Loc.ptr (RNode.maxN (RNode.node j d w a b)).idOf

/-- Dereference `leftmost_->left`: the end node's left child is the real
root. -/
def leftChildAtLoc (root : RNode α) : Loc → RNode α
  | Loc.endp => root
  | Loc.ptr i =>
    match getN root i with
    | none => .nil
    | some s => s.left

/-- `RbTree::emplace_`: construct and insert a node, repair, update
`leftmost_` (but not `size_`).  Returns the new tree and
(node address, duplicate?). -/
def RbTree.emplaceT (cmp : α → α → Bool) (t : RbTree α) (v : α) :
    RbTree α × (Nat × Bool) :=
  match t.root with
  | .nil =>
    ({ root := RNode.node t.nextId Color.black v .nil .nil,
       leftmost := Loc.ptr t.nextId, size := t.size, nextId := t.nextId + 1 },
     (t.nextId, false))
  | .node j c x l r =>
    match emplaceN cmp v t.nextId (.node j c x l r) [] with
    | Sum.inl dup => (t, (dup, true))
    | Sum.inr ctxNew =>
      let nn := RNode.node t.nextId Color.red v .nil .nil
      let t1 := plug ctxNew nn
      let lm' := if !(leftChildAtLoc t1 t.leftmost).isNil then Loc.ptr t.nextId
        else t.leftmost
      let root2 := setRootColor Color.black (fixupInsert nn ctxNew)
      ({ root := root2, leftmost := lm', size := t.size, nextId := t.nextId + 1 },
       (t.nextId, false))

/-- `RbTree::insert`: call `emplace_`, bump `size_` on success, and
return (iterator, inserted?). -/
def RbTree.insertV (cmp : α → α → Bool) (t : RbTree α) (v : α) :
    RbTree α × (Loc × Bool) :=
  let res := RbTree.emplaceT cmp t v
  let t' := if !res.2.2 then
      { root := res.1.root, leftmost := res.1.leftmost, size := res.1.size + 1,
        nextId := res.1.nextId }
    else res.1
  (t', (Loc.ptr res.2.1, !res.2.2))

/-- `RbTree::delete_` for the node of address `i`: update `leftmost_`,
choose the spliced node `y` (the target, or the minimum of its right
subtree), splice and repair.  Does not touch `size`. -/
def RbTree.deleteById (t : RbTree α) (i : Nat) : RbTree α :=
  match zipTo i t.root [] with
  | none => t
  | some (RNode.nil, _) => t
  | some (RNode.node j c v l r, ctx) =>
    let lm' := if t.leftmost = Loc.ptr j then nextZ (RNode.node j c v l r) ctx
      else t.leftmost
    let root' :=
      if l.isNil || r.isNil then
        let childY := if !l.isNil then l else r
        spliceFix ctx childY (decide (c = Color.black))
      else
        match r.minN with
        | RNode.nil => t.root
        | RNode.node yi yc yv _ yr =>
          let yctx := minZipC r (⟨Side.r, yi, c, yv, l⟩ :: ctx)
          spliceFix yctx yr (decide (yc = Color.black))
    { root := root', leftmost := lm', size := t.size, nextId := t.nextId }

/-- `RbTree::erase`: validity check, then `delete_` and `--size_`.  The
source compares the iterator's node against this tree's end node and its
home against `this`; a foreign iterator's end node is a different
address, caught by the home test, so the transcription's `Loc.endp`
test together with the home test covers exactly the same states. -/
def RbTree.eraseIter (t : RbTree α) (selfAddr : Nat) (pos : Iter) :
    Except TreeErr (RbTree α) :=
  if pos.node = Loc.endp ∨ pos.home ≠ selfAddr then Except.error TreeErr.invalidIterator
  else
    match pos.node with
    | Loc.endp => Except.error TreeErr.invalidIterator
    | Loc.ptr i =>
      let t' := RbTree.deleteById t i
      Except.ok { root := t'.root, leftmost := t'.leftmost, size := t'.size - 1,
                  nextId := t'.nextId }

/-- `Node::find`, generic over a probe type as in the source template:
`cl` is `cmp(key, value)`, `cr` is `cmp(value, key)`. -/
def findN {κ : Type} (cl : κ → α → Bool) (cr : α → κ → Bool) (k : κ) :
    RNode α → Option Nat
  | .nil => none
  | .node i _ v l r =>
    if !(cl k v) && !(cr v k) then some i
    else if cl k v then
      match l with
      | .nil => none
      | .node j d w a b => findN cl cr k (.node j d w a b)
    else
      match r with
      | .nil => none
      | .node j d w a b => findN cl cr k (.node j d w a b)

/-- `RbTree::find`: `end()` on an empty tree (`empty()` is
`size_ == 0`), else probe from the real root. -/
def RbTree.findK {κ : Type} (cl : κ → α → Bool) (cr : α → κ → Bool)
    (t : RbTree α) (k : κ) : Loc :=
  if t.size = 0 then Loc.endp
  else
    match findN cl cr k t.root with
    | none => Loc.endp
    | some i => Loc.ptr i

/-- `Node::clone`: a structurally identical copy with fresh addresses
drawn from `supply` (the node first, then the left and right subtrees,
matching the source's allocation order). -/
def cloneN : RNode α → Nat → RNode α × Nat
  | .nil, s => (.nil, s)
  | .node _ c v l r, s =>
    let resl := cloneN l (s + 1)
    let resr := cloneN r resl.2
    (.node s c v resl.1 resr.1, resr.2)

/-- `RbTree::operator=`: destroy, copy `size_`, deep-clone from the end
node down, and recompute `leftmost_ = endNode_->min()` (the end node
itself, i.e. `Loc.endp`, when the clone is empty). -/
def RbTree.assign (other : RbTree α) (supply : Nat) : RbTree α :=
  let res := cloneN other.root supply
  { root := res.1, size := other.size,
    leftmost := match res.1 with
      | RNode.nil => Loc.endp
      | RNode.node j d w a b => Loc.ptr (RNode.minN (RNode.node j d w a b)).idOf,
    nextId := res.2 }

/-- `iterator::operator++`/`const_iterator::operator++` (prefix): fail on
the end node, else step to `node_->next()`. -/
def RbTree.incIter (t : RbTree α) (it : Iter) : Except TreeErr Iter :=
  if it.node = Loc.endp then Except.error TreeErr.invalidIterator
  else
    match it.node with
    | Loc.endp => Except.error TreeErr.invalidIterator
    | Loc.ptr i =>
      match zipTo i t.root [] with
      | none => Except.ok { node := Loc.endp, home := it.home }
      | some res => Except.ok { node := nextZ res.1 res.2, home := it.home }

/-- `operator++(int)` (postfix): same check; returns (old value, new
iterator state). -/
def RbTree.incIterPost (t : RbTree α) (it : Iter) : Except TreeErr (Iter × Iter) :=
  match RbTree.incIter t it with
  | Except.error e => Except.error e
  | Except.ok it' => Except.ok (it, it')

/-- `iterator::operator--`/`const_iterator::operator--` (prefix): fail at
`leftmost_`, else step to `node_->prev()` (from the end node this is the
maximum). -/
def RbTree.decIter (t : RbTree α) (it : Iter) : Except TreeErr Iter :=
  if it.node = t.leftmost then Except.error TreeErr.invalidIterator
  else
    match it.node with
    | Loc.endp =>
      match t.root with
      | RNode.nil => Except.ok it
      | RNode.node j d w a b =>
        Except.ok { node := Loc.ptr (RNode.maxN (RNode.node j d w a b)).idOf,
                    home := it.home }
    | Loc.ptr i =>
      match zipTo i t.root [] with
      | none => Except.ok it
      | some res => Except.ok { node := prevZ res.1 res.2, home := it.home }

/-- `operator--(int)` (postfix). -/
def RbTree.decIterPost (t : RbTree α) (it : Iter) : Except TreeErr (Iter × Iter) :=
  match RbTree.decIter t it with
  | Except.error e => Except.error e
  | Except.ok it' => Except.ok (it, it')

end Ops

section MapAdapter

variable {κ V : Type}

/-- `sjtu::internal::MapValueCompare`: compare stored pairs by key only. -/
def pairCmp (cmp : κ → κ → Bool) (a b : κ × V) : Bool := cmp a.1 b.1

/-- `map::operator[]`: insert a default-constructed mapped value under
the key and return a reference to the mapped value at the resulting
iterator (`p.first->second`). -/
def mapSubscript (cmp : κ → κ → Bool) (m : RbTree (κ × V)) (k : κ) (dflt : V) :
    RbTree (κ × V) × Option V :=
  let res := RbTree.insertV (pairCmp cmp) m (k, dflt)
  let deref :=
    match res.2.1 with
    | Loc.endp => none
    | Loc.ptr i =>
      match getN res.1.root i with
      | some (RNode.node _ _ v _ _) => some v.2
      | _ => none
  (res.1, deref)

end MapAdapter

section Checkers

variable {α : Type}

/-- Values in in-order. -/
def valsOf (t : RNode α) : List α := (RNode.inorder t).map Prod.snd

/-- Addresses in in-order. -/
def idsOf (t : RNode α) : List Nat := (RNode.inorder t).map Prod.fst

/-- No red node has a red child. -/
def noRedRedB : RNode α → Bool
  | .nil => true
  | .node _ c _ l r =>
    (if c = Color.red then nullOrBlackB l && nullOrBlackB r else true) &&
      noRedRedB l && noRedRedB r

/-- The black-height when every root-to-null path agrees, else `none`. -/
def bhOf : RNode α → Option Nat
  | .nil => some 0
  | .node _ c _ l r =>
    match bhOf l, bhOf r with
    | some a, some b =>
      if a = b then some (if c = Color.black then a + 1 else a) else none
    | _, _ => none

/-- The root is black (or the tree empty). -/
def rootBlackB : RNode α → Bool
  | .nil => true
  | .node _ c _ _ _ => decide (c = Color.black)

/-- The pointer that `leftmost_` must cache: the minimum real node, or
the end node when empty. -/
def headLoc : RNode α → Loc
  | t =>
    match RNode.inorder t with
    | [] => Loc.endp
    | (i, _) :: _ => Loc.ptr i

/-- All addresses below the allocator's next fresh address. -/
def idsBelow (t : RNode α) (n : Nat) : Prop := ∀ i ∈ idsOf t, i < n

/-- The full invariant of a reachable tree: strictly increasing in-order
values, distinct addresses, consistent black-height, no red-red edge,
black root, correctly cached `leftmost_`, correct `size_`, and addresses
below the allocation counter. -/
def WF (cmp : α → α → Bool) (t : RbTree α) : Prop :=
  List.Chain' (fun a b => cmp a b = true) (valsOf t.root) ∧
  (idsOf t.root).Nodup ∧
  (bhOf t.root).isSome = true ∧
  noRedRedB t.root = true ∧
  rootBlackB t.root = true ∧
  t.leftmost = headLoc t.root ∧
  t.size = (RNode.inorder t.root).length ∧
  idsBelow t.root t.nextId

/-- A strict weak order, as assumed of the comparator `Cmp`:
asymmetric and negatively transitive. -/
structure SWO (cmp : α → α → Bool) : Prop where
  asym : ∀ a b, cmp a b = true → cmp b a = false
  negtrans : ∀ a b c, cmp a b = false → cmp b c = false → cmp a c = false

theorem SWO.irrefl {cmp : α → α → Bool} (h : SWO cmp) (a : α) : cmp a a = false := by
  cases hc : cmp a a with
  | false => rfl
  | true => exact absurd (hc.symm.trans (h.asym a a hc)) (by simp)

theorem SWO.trans {cmp : α → α → Bool} (h : SWO cmp) {a b c : α}
    (hab : cmp a b = true) (hbc : cmp b c = true) : cmp a c = true := by
  by_contra hac
  have hac' : cmp a c = false := by
    cases hx : cmp a c with
    | false => rfl
    | true => exact absurd hx hac
  have hba : cmp b a = false := h.asym a b hab
  have : cmp b c = false := h.negtrans b a c hba hac'
  rw [hbc] at this
  exact Bool.true_eq_false.mp this

end Checkers

section Steps

variable {α : Type}

/-- The mutating operations of claim C1: `insert(value)` and
`erase(iterator)`, the latter identified by the address the iterator
denotes. -/
inductive Op (α : Type) where
  | ins (v : α)
  | del (i : Nat)

/-- Apply one operation.  `erase` is given an iterator of this tree
denoting a live node (a valid iterator); an address not in the tree
corresponds to no constructible iterator and leaves the tree unchanged. -/
def applyOp (cmp : α → α → Bool) (t : RbTree α) : Op α → RbTree α
  | .ins v => (RbTree.insertV cmp t v).1
  | .del i =>
    if i ∈ idsOf t.root then
      match RbTree.eraseIter t 0 { node := Loc.ptr i, home := 0 } with
      | Except.ok t' => t'
      | Except.error _ => t
    else t

/-- Run a sequence of inserts/erases from a starting tree. -/
def applyOps (cmp : α → α → Bool) (ops : List (Op α)) (t : RbTree α) : RbTree α :=
  ops.foldl (applyOp cmp) t

/-- The reachable tree states: empty construction, insert, (valid)
erase, clear, and copy-assignment/copy-construction from another
reachable tree. -/
inductive Reach (cmp : α → α → Bool) : RbTree α → Prop where
  | init : Reach cmp RbTree.mk0
  | step {t : RbTree α} (o : Op α) : Reach cmp t → Reach cmp (applyOp cmp t o)
  | clearStep {t : RbTree α} : Reach cmp t → Reach cmp (RbTree.clearT t)
  | assignStep {s : RbTree α} (supply : Nat) : Reach cmp s →
      Reach cmp (RbTree.assign s supply)

end Steps

section PlugLemmas

variable {α : Type}

/-- In-order entries contributed by a context strictly before the hole. -/
def ctxLo : Ctx α → List (Nat × α)
  | [] => []
  | f :: rest =>
    match f.side with
    | .l => ctxLo rest
    | .r => ctxLo rest ++ RNode.inorder f.sib ++ [(f.id, f.val)]

/-- In-order entries contributed by a context strictly after the hole. -/
def ctxHi : Ctx α → List (Nat × α)
  | [] => []
  | f :: rest =>
    match f.side with
    | .l => (f.id, f.val) :: RNode.inorder f.sib ++ ctxHi rest
    | .r => ctxHi rest

/-- The pointer to the first entry of an in-order list. -/
def headLocL : List (Nat × α) → Loc
  | [] => Loc.endp
  | (j, _) :: _ => Loc.ptr j

theorem inorder_mkNodeS_l (i : Nat) (c : Color) (v : α) (a b : RNode α) :
    (mkNodeS Side.l i c v a b).inorder = a.inorder ++ (i, v) :: b.inorder := by
  simp [mkNodeS, RNode.inorder]

theorem inorder_mkNodeS_r (i : Nat) (c : Color) (v : α) (a b : RNode α) :
    (mkNodeS Side.r i c v a b).inorder = b.inorder ++ (i, v) :: a.inorder := by
  simp [mkNodeS, RNode.inorder]

theorem inorder_mkF (f : Frame α) (t : RNode α) :
    (mkF f t).inorder =
      match f.side with
      | .l => t.inorder ++ (f.id, f.val) :: f.sib.inorder
      | .r => f.sib.inorder ++ (f.id, f.val) :: t.inorder := by
  cases h : f.side <;> simp [mkF, h, inorder_mkNodeS_l, inorder_mkNodeS_r]

theorem plug_inorder (ctx : Ctx α) :
    ∀ t : RNode α, (plug ctx t).inorder = ctxLo ctx ++ t.inorder ++ ctxHi ctx := by
  induction ctx with
  | nil => intro t; simp [plug, ctxLo, ctxHi]
  | cons f rest ih =>
    intro t
    cases h : f.side <;>
      simp [plug, ih, inorder_mkF, h, ctxLo, ctxHi, List.append_assoc]

theorem plug_inorder_congr {ctx : Ctx α} {s t : RNode α}
    (h : s.inorder = t.inorder) : (plug ctx s).inorder = (plug ctx t).inorder := by
  simp [plug_inorder, h]

theorem headLoc_eq (t : RNode α) : headLoc t = headLocL t.inorder := by
  cases h : t.inorder <;> simp [headLoc, headLocL, h]

theorem climbNext_spec (ctx : Ctx α) : climbNext ctx = headLocL (ctxHi ctx) := by
  induction ctx with
  | nil => simp [climbNext, ctxHi, headLocL]
  | cons f rest ih =>
    cases h : f.side <;> simp [climbNext, ctxHi, h, ih, headLocL]

theorem minN_head (r : RNode α) :
    r ≠ RNode.nil → ∃ w tl, r.inorder = ((r.minN).idOf, w) :: tl := by
  induction r using RNode.minN.induct with
  | case1 => intro h; exact absurd rfl h
  | case2 i c v rr =>
    intro _
    exact ⟨v, rr.inorder, by simp [RNode.inorder, RNode.minN, RNode.idOf]⟩
  | case3 i c v rr j d w a b ih =>
    intro _
    obtain ⟨w', tl, htl⟩ := ih (by intro h; exact RNode.noConfusion h)
    refine ⟨w', tl ++ (i, v) :: rr.inorder, ?_⟩
    show (RNode.node j d w a b).inorder ++ (i, v) :: rr.inorder = _
    rw [htl]
    simp [RNode.minN]

theorem plug_minZipC (r : RNode α) :
    ∀ ctx : Ctx α, plug (minZipC r ctx) r.minN = plug ctx r := by
  induction r using RNode.minN.induct with
  | case1 => intro ctx; simp [minZipC, RNode.minN]
  | case2 i c v rr => intro ctx; simp [minZipC, RNode.minN]
  | case3 i c v rr j d w a b ih =>
    intro ctx
    simp only [minZipC, RNode.minN]
    rw [ih]
    simp [plug, mkF, mkNodeS]

theorem minZipC_remove (r : RNode α) :
    ∀ (ctx : Ctx α) (yi : Nat) (yc : Color) (yv : α) (yr : RNode α),
      r.minN = RNode.node yi yc yv RNode.nil yr →
      r.inorder = (yi, yv) :: r.inorder.tail ∧
      (plug (minZipC r ctx) yr).inorder =
        ctxLo ctx ++ r.inorder.tail ++ ctxHi ctx := by
  induction r using RNode.minN.induct with
  | case1 => intro ctx yi yc yv yr h; exact absurd h (by simp [RNode.minN])
  | case2 i c v rr =>
    intro ctx yi yc yv yr h
    simp only [RNode.minN] at h
    cases h
    constructor
    · simp [RNode.inorder]
    · simp [minZipC, plug_inorder, RNode.inorder]
  | case3 i c v rr j d w a b ih =>
    intro ctx yi yc yv yr h
    simp only [RNode.minN] at h
    obtain ⟨hhead, hplug⟩ :=
      ih (⟨Side.l, i, c, v, rr⟩ :: ctx) yi yc yv yr h
    have hio : (RNode.node i c v (RNode.node j d w a b) rr).inorder =
        (RNode.node j d w a b).inorder ++ (i, v) :: rr.inorder := rfl
    have htail : (RNode.node i c v (RNode.node j d w a b) rr).inorder.tail =
        (RNode.node j d w a b).inorder.tail ++ (i, v) :: rr.inorder := by
      rw [hio]
      conv_lhs => rw [hhead]
      simp
    constructor
    · rw [hio, hhead]
      simp
    · simp only [minZipC] at hplug ⊢
      rw [hplug, htail]
      simp [ctxLo, ctxHi, RNode.inorder, List.append_assoc]

theorem zipTo_spec (i : Nat) (t : RNode α) :
    ∀ (ctx : Ctx α) (n : RNode α) (c' : Ctx α), zipTo i t ctx = some (n, c') →
      plug c' n = plug ctx t ∧ n.idOf = i ∧ n ≠ RNode.nil := by
  induction t with
  | nil => intro ctx n c' h; simp [zipTo] at h
  | node j c v l r ihl ihr =>
    intro ctx n c' h
    simp only [zipTo] at h
    by_cases hj : j = i
    · subst hj
      simp at h
      obtain ⟨h1, h2⟩ := h
      subst h1; subst h2
      exact ⟨rfl, rfl, by intro hc; exact RNode.noConfusion hc⟩
    · simp [hj] at h
      cases hl : zipTo i l (⟨Side.l, j, c, v, r⟩ :: ctx) with
      | some res =>
        rw [hl] at h
        simp at h
        obtain ⟨hp, hid, hnn⟩ := ihl _ _ _ (by rw [hl, h])
        refine ⟨?_, hid, hnn⟩
        rw [hp]
        simp [plug, mkF, mkNodeS]
      | none =>
        rw [hl] at h
        simp at h
        obtain ⟨hp, hid, hnn⟩ := ihr _ _ _ h
        refine ⟨?_, hid, hnn⟩
        rw [hp]
        simp [plug, mkF, mkNodeS]

theorem zipTo_mem (i : Nat) (t : RNode α) :
    ∀ ctx : Ctx α, i ∈ idsOf t → (zipTo i t ctx).isSome = true := by
  induction t with
  | nil => intro ctx h; simp [idsOf, RNode.inorder] at h
  | node j c v l r ihl ihr =>
    intro ctx h
    simp only [idsOf, RNode.inorder, List.map_append, List.map_cons,
      List.mem_append, List.mem_cons] at h
    simp only [zipTo]
    by_cases hj : j = i
    · simp [hj]
    · simp only [hj, if_false]
      rcases h with hmem | hmem | hmem
      · have := ihl (⟨Side.l, j, c, v, r⟩ :: ctx) hmem
        cases hzip : zipTo i l (⟨Side.l, j, c, v, r⟩ :: ctx) with
        | some res => simp [hzip]
        | none => rw [hzip] at this; simp at this
      · exact absurd hmem.symm hj
      · cases hzip : zipTo i l (⟨Side.l, j, c, v, r⟩ :: ctx) with
        | some res => simp [hzip]
        | none => simp [hzip]; exact ihr _ hmem

end PlugLemmas

section InorderPreservation

variable {α : Type}

/-- Extract the subtree from a fixup outcome. -/
def FixRes.get : FixRes α → RNode α
  | .done t => t
  | .up t => t

theorem setRootColor_inorder (c : Color) (t : RNode α) :
    (setRootColor c t).inorder = t.inorder := by
  cases t <;> simp [setRootColor, RNode.inorder]

theorem insRebuild_inorder (pf gf : Frame α) (n : RNode α) :
    (insRebuild pf gf n).inorder = (mkF gf (mkF pf n)).inorder := by
  by_cases hside : pf.side = gf.side
  · cases hg : gf.side <;>
      simp [insRebuild, hside, hg, mkF, inorder_mkNodeS_l, inorder_mkNodeS_r,
        List.append_assoc]
  · rcases n with _ | ⟨ni, nc, nv, n1, n2⟩
    · simp [insRebuild, hside]
    · have hps : pf.side = gf.side.other := by
        cases hg : gf.side <;> cases hp : pf.side <;> simp_all [Side.other]
      cases hg : gf.side <;>
        simp_all [insRebuild, mkF, Side.other, RNode.childS,
          inorder_mkNodeS_l, inorder_mkNodeS_r, RNode.inorder,
          List.append_assoc]

theorem fixupInsert_inorder (n : RNode α) (ctx : Ctx α) :
    (fixupInsert n ctx).inorder = (plug ctx n).inorder := by
  induction n, ctx using fixupInsert.induct with
  | case1 n => simp [fixupInsert, plug]
  | case2 n pf rest hc =>
    rw [fixupInsert.eq_def]
    simp [if_pos hc]
  | case3 n pf hc => simp [fixupInsert, hc]
  | case4 n pf hc gf rest2 ui uv ul ur heq par gcol s ih =>
    have hred : pf.color = Color.red := not_not.mp hc
    have hstep : fixupInsert n (pf :: gf :: rest2) = fixupInsert s rest2 := by
      simp only [fixupInsert, hred, ne_eq, not_true_eq_false, if_false, heq]
    rw [hstep, ih]
    show _ = (plug rest2 (mkF gf (mkF pf n))).inorder
    apply plug_inorder_congr
    show (mkNodeS gf.side gf.id gcol gf.val
      (mkF ⟨pf.side, pf.id, Color.black, pf.val, pf.sib⟩ n)
      (RNode.node ui Color.black uv ul ur)).inorder = _
    cases hg : gf.side <;> cases hp : pf.side <;>
      simp [mkF, hg, hp, heq, inorder_mkNodeS_l, inorder_mkNodeS_r,
        RNode.inorder, List.append_assoc]
  | case5 n pf hc gf rest2 hnored =>
    have hred : pf.color = Color.red := not_not.mp hc
    have hstep : fixupInsert n (pf :: gf :: rest2) = plug rest2 (insRebuild pf gf n) := by
      simp only [fixupInsert, hred, ne_eq, not_true_eq_false, if_false]
    rw [hstep]
    show _ = (plug rest2 (mkF gf (mkF pf n))).inorder
    exact plug_inorder_congr (insRebuild_inorder pf gf n)

theorem fixupInner_inorder (P : RNode α) (d : Side) :
    ((fixupInner P d).get).inorder = P.inorder := by
  rcases P with _ | ⟨pi, pc, pv, p1, p2⟩
  · cases d <;> simp [fixupInner, FixRes.get]
  · cases d
    · rcases p2 with _ | ⟨mi, mc, mv, m1, m2⟩
      · simp [fixupInner, FixRes.get, RNode.childS, Side.other]
      · rcases m1 with _ | ⟨qi, qc, qv, q1, q2⟩ <;>
          rcases m2 with _ | ⟨ri, rc, rv, r1, r2⟩ <;>
          (try cases qc) <;> (try cases rc) <;> cases pc <;>
          simp [fixupInner, FixRes.get, RNode.childS, Side.other, nullOrBlackB,
            mkNodeS, setRootColor, RNode.inorder, List.append_assoc]
    · rcases p1 with _ | ⟨mi, mc, mv, m1, m2⟩
      · simp [fixupInner, FixRes.get, RNode.childS, Side.other]
      · rcases m1 with _ | ⟨qi, qc, qv, q1, q2⟩ <;>
          rcases m2 with _ | ⟨ri, rc, rv, r1, r2⟩ <;>
          (try cases qc) <;> (try cases rc) <;> cases pc <;>
          simp [fixupInner, FixRes.get, RNode.childS, Side.other, nullOrBlackB,
            mkNodeS, setRootColor, RNode.inorder, List.append_assoc]

theorem fixupStep_inorder (P : RNode α) (d : Side) :
    ((fixupStep P d).get).inorder = P.inorder := by
  rcases P with _ | ⟨pi, pc, pv, p1, p2⟩
  · cases d <;> simp [fixupStep, FixRes.get]
  · cases d
    · rcases p2 with _ | ⟨ni, nc, nv, na, nb⟩
      · simp [fixupStep, fixupInner, RNode.childS, Side.other, FixRes.get]
      · cases nc with
        | red =>
          simp only [fixupStep, RNode.childS, Side.other]
          have hinner := fixupInner_inorder
            (mkNodeS Side.l pi Color.red pv p1 na) Side.l
          cases hres : fixupInner (mkNodeS Side.l pi Color.red pv p1 na) Side.l with
          | done s =>
            rw [hres] at hinner
            simp only [FixRes.get] at hinner
            simp only [hres, FixRes.get]
            simp only [mkNodeS, RNode.inorder] at hinner ⊢
            simp [hinner, List.append_assoc]
          | up s =>
            rw [hres] at hinner
            simp only [FixRes.get] at hinner
            simp only [hres, FixRes.get]
            simp only [mkNodeS, RNode.inorder] at hinner ⊢
            simp [hinner, List.append_assoc]
        | black =>
          have h := fixupInner_inorder
            (RNode.node pi pc pv p1 (RNode.node ni Color.black nv na nb)) Side.l
          simpa [fixupStep, RNode.childS, Side.other] using h
    · rcases p1 with _ | ⟨ni, nc, nv, na, nb⟩
      · simp [fixupStep, fixupInner, RNode.childS, Side.other, FixRes.get]
      · cases nc with
        | red =>
          simp only [fixupStep, RNode.childS, Side.other]
          have hinner := fixupInner_inorder
            (mkNodeS Side.r pi Color.red pv p2 nb) Side.r
          cases hres : fixupInner (mkNodeS Side.r pi Color.red pv p2 nb) Side.r with
          | done s =>
            rw [hres] at hinner
            simp only [FixRes.get] at hinner
            simp only [hres, FixRes.get]
            simp only [mkNodeS, RNode.inorder] at hinner ⊢
            simp [hinner, List.append_assoc]
          | up s =>
            rw [hres] at hinner
            simp only [FixRes.get] at hinner
            simp only [hres, FixRes.get]
            simp only [mkNodeS, RNode.inorder] at hinner ⊢
            simp [hinner, List.append_assoc]
        | black =>
          have h := fixupInner_inorder
            (RNode.node pi pc pv (RNode.node ni Color.black nv na nb) p2) Side.r
          simpa [fixupStep, RNode.childS, Side.other] using h

theorem fixupDelete_inorder (ctx : Ctx α) (P : RNode α) (d : Side) :
    (fixupDelete ctx P d).inorder = (plug ctx P).inorder := by
  induction ctx, P, d using fixupDelete.induct with
  | case1 ctx P d s hs =>
    have h := fixupStep_inorder P d
    rw [hs] at h
    simp only [FixRes.get] at h
    simp only [fixupDelete, hs]
    exact plug_inorder_congr h
  | case2 P d s hs =>
    have h := fixupStep_inorder P d
    rw [hs] at h
    simp only [FixRes.get] at h
    simp only [fixupDelete, hs, setRootColor_inorder]
    simpa [plug] using h
  | case3 P d s hs f rest ih =>
    have h := fixupStep_inorder P d
    rw [hs] at h
    simp only [FixRes.get] at h
    conv_lhs => rw [fixupDelete.eq_def]
    simp only [hs]
    rw [ih]
    show _ = (plug rest (mkF f P)).inorder
    have hmk : (mkF f s).inorder = (mkF f P).inorder := by
      cases hfs : f.side <;>
        simp [mkF, hfs, inorder_mkNodeS_l, inorder_mkNodeS_r, h]
    exact plug_inorder_congr hmk

theorem minN_shape (t : RNode α) :
    t ≠ RNode.nil → ∃ yi yc yv yr, t.minN = RNode.node yi yc yv RNode.nil yr := by
  induction t using RNode.minN.induct with
  | case1 => intro h; exact absurd rfl h
  | case2 i c v rr => intro _; exact ⟨i, c, v, rr, rfl⟩
  | case3 i c v rr j d w a b ih =>
    intro _
    obtain ⟨yi, yc, yv, yr, hy⟩ := ih (by intro h; exact RNode.noConfusion h)
    exact ⟨yi, yc, yv, yr, by simp [RNode.minN, hy]⟩

theorem spliceFix_inorder (yctx : Ctx α) (childY : RNode α) (ycb : Bool) :
    (spliceFix yctx childY ycb).inorder = (plug yctx childY).inorder := by
  rcases yctx with _ | ⟨f, rest⟩
  · simp only [spliceFix, plug]
    split
    · exact setRootColor_inorder Color.black childY
    · rfl
  · simp only [spliceFix]
    have hmk : ∀ x : RNode α, x.inorder = childY.inorder →
        (plug rest (mkF f x)).inorder = (plug (f :: rest) childY).inorder := by
      intro x hx
      show _ = (plug rest (mkF f childY)).inorder
      apply plug_inorder_congr
      cases hfs : f.side <;>
        simp [mkF, hfs, inorder_mkNodeS_l, inorder_mkNodeS_r, hx]
    split
    · split
      · exact hmk _ (setRootColor_inorder Color.black childY)
      · rw [fixupDelete_inorder]
        exact hmk _ rfl
    · exact hmk _ rfl

/-- The in-order effect of `delete_`: exactly the target's entry is
removed; every other node keeps its position, its address, and its
value. -/
theorem deleteById_inorder (t : RbTree α) (i : Nat)
    (hmem : i ∈ idsOf t.root) :
    ∃ (L R : List (Nat × α)) (v : α),
      (RNode.inorder t.root) = L ++ (i, v) :: R ∧
      (RNode.inorder (RbTree.deleteById t i).root) = L ++ R := by
  have hz := zipTo_mem i t.root [] hmem
  cases hzip : zipTo i t.root [] with
  | none => rw [hzip] at hz; simp at hz
  | some res =>
    obtain ⟨n, ctx⟩ := res
    obtain ⟨hplugeq, hid, hnn⟩ := zipTo_spec i t.root [] n ctx hzip
    rcases n with _ | ⟨j, c, v, l, r⟩
    · exact absurd rfl hnn
    have hj : j = i := hid
    subst hj
    have hpe : plug ctx (RNode.node j c v l r) = t.root := hplugeq
    have hroot : RNode.inorder t.root =
        ctxLo ctx ++ (RNode.inorder l ++ (j, v) :: RNode.inorder r) ++ ctxHi ctx := by
      rw [← hpe]
      simp [plug_inorder, RNode.inorder]
    simp only [RbTree.deleteById, hzip]
    by_cases hlr : (l.isNil || r.isNil) = true
    · refine ⟨ctxLo ctx ++ RNode.inorder l, RNode.inorder r ++ ctxHi ctx, v, ?_, ?_⟩
      · rw [hroot]; simp [List.append_assoc]
      · simp only [hlr, if_true]
        rw [spliceFix_inorder, plug_inorder]
        rcases l with _ | ⟨li, lc, lv, l1, l2⟩
        · simp [RNode.isNil, RNode.inorder, List.append_assoc]
        · have hr : r = RNode.nil := by
            rcases r with _ | ⟨ri2, rc2, rv2, r1, r2⟩
            · rfl
            · simp [RNode.isNil] at hlr
          subst hr
          simp [RNode.isNil, RNode.inorder, List.append_assoc]
    · have hlnil : l ≠ RNode.nil := by
        intro h; subst h; simp [RNode.isNil] at hlr
      have hrnil : r ≠ RNode.nil := by
        intro h; subst h; simp [RNode.isNil] at hlr
      obtain ⟨yi, yc, yv, yr, hy⟩ := minN_shape r hrnil
      have hlrf : (l.isNil || r.isNil) = false := by
        simp only [Bool.or_eq_false_iff]
        constructor
        · rcases l with _ | _
          · exact absurd rfl hlnil
          · rfl
        · rcases r with _ | _
          · exact absurd rfl hrnil
          · rfl
      simp only [hlrf, Bool.false_eq_true, if_false, hy]
      obtain ⟨hhead, hplug⟩ :=
        minZipC_remove r (⟨Side.r, yi, c, yv, l⟩ :: ctx) yi yc yv yr hy
      refine ⟨ctxLo ctx ++ RNode.inorder l, RNode.inorder r ++ ctxHi ctx, v, ?_, ?_⟩
      · rw [hroot]
        simp [List.append_assoc]
      · rw [spliceFix_inorder, hplug]
        conv_rhs => rw [hhead]
        simp [ctxLo, ctxHi, RNode.inorder, List.append_assoc]

end InorderPreservation

section EmplaceLemmas

variable {α : Type}

/-- The functional reading of the attach step of `Node::emplace`: probe
by the two-comparison trichotomy and place the fresh red leaf at the
empty slot (or change nothing when an equivalent value is found).
`emplaceN_plug` below proves that plugging `emplaceN`'s context with the
fresh leaf produces exactly this tree. -/
def bstIns (cmp : α → α → Bool) (v : α) (nid : Nat) : RNode α → RNode α
  | .nil => .node nid .red v .nil .nil
  | .node i c x l r =>
    if !(cmp v x) && !(cmp x v) then .node i c x l r
    else if cmp v x then .node i c x (bstIns cmp v nid l) r
    else .node i c x l (bstIns cmp v nid r)

/-- The binary-search-tree ordering of a subtree, phrased with the
comparator. -/
inductive OrdT (cmp : α → α → Bool) : RNode α → Prop where
  | nil : OrdT cmp RNode.nil
  | node {i c v l r} : OrdT cmp l → OrdT cmp r →
      (∀ x ∈ valsOf l, cmp x v = true) →
      (∀ y ∈ valsOf r, cmp v y = true) →
      OrdT cmp (RNode.node i c v l r)

theorem valsOf_node (i : Nat) (c : Color) (v : α) (l r : RNode α) :
    valsOf (RNode.node i c v l r) = valsOf l ++ v :: valsOf r := by
  simp [valsOf, RNode.inorder]

theorem valsOf_nil : valsOf (RNode.nil : RNode α) = [] := rfl

theorem pairwise_of_ordT {cmp : α → α → Bool} (hswo : SWO cmp) {t : RNode α}
    (h : OrdT cmp t) : (valsOf t).Pairwise (fun a b => cmp a b = true) := by
  induction h with
  | nil => simp [valsOf, RNode.inorder]
  | node hl hr hbl hbr ihl ihr =>
    rw [valsOf_node]
    rw [List.pairwise_append]
    refine ⟨ihl, ?_, ?_⟩
    · rw [List.pairwise_cons]
      exact ⟨fun y hy => hbr y hy, ihr⟩
    · intro a ha b hb
      rcases List.mem_cons.mp hb with hb | hb
      · subst hb; exact hbl a ha
      · exact hswo.trans (hbl a ha) (hbr b hb)

theorem ordT_of_pairwise {cmp : α → α → Bool} {t : RNode α}
    (h : (valsOf t).Pairwise (fun a b => cmp a b = true)) : OrdT cmp t := by
  induction t with
  | nil => exact OrdT.nil
  | node i c v l r ihl ihr =>
    rw [valsOf_node, List.pairwise_append] at h
    obtain ⟨hL, hR, hcross⟩ := h
    rw [List.pairwise_cons] at hR
    exact OrdT.node (ihl hL) (ihr hR.2)
      (fun x hx => hcross x hx v (List.mem_cons_self _ _))
      hR.1

theorem chain'_iff_pairwise {cmp : α → α → Bool} (hswo : SWO cmp) (l : List α) :
    l.Chain' (fun a b => cmp a b = true) ↔
      l.Pairwise (fun a b => cmp a b = true) := by
  haveI : IsTrans α (fun a b => cmp a b = true) := ⟨fun a b c => hswo.trans⟩
  exact List.chain'_iff_pairwise

theorem bstIns_vals_sub {cmp : α → α → Bool} (v : α) (nid : Nat) (t : RNode α) :
    ∀ y ∈ valsOf (bstIns cmp v nid t), y = v ∨ y ∈ valsOf t := by
  induction t with
  | nil => intro y hy; simp [bstIns, valsOf, RNode.inorder] at hy; exact Or.inl hy
  | node i c x l r ihl ihr =>
    intro y hy
    simp only [bstIns] at hy
    split at hy
    · exact Or.inr hy
    · split at hy
      · rw [valsOf_node] at hy
        rcases List.mem_append.mp hy with hy | hy
        · rcases ihl y hy with h | h
          · exact Or.inl h
          · refine Or.inr ?_
            rw [valsOf_node]
            exact List.mem_append.mpr (Or.inl h)
        · refine Or.inr ?_
          rw [valsOf_node]
          exact List.mem_append.mpr (Or.inr hy)
      · rw [valsOf_node] at hy
        rcases List.mem_append.mp hy with hy | hy
        · refine Or.inr ?_
          rw [valsOf_node]
          exact List.mem_append.mpr (Or.inl hy)
        · rcases List.mem_cons.mp hy with hy | hy
          · refine Or.inr ?_
            rw [valsOf_node]
            exact List.mem_append.mpr (Or.inr (List.mem_cons.mpr (Or.inl hy)))
          · rcases ihr y hy with h | h
            · exact Or.inl h
            · refine Or.inr ?_
              rw [valsOf_node]
              exact List.mem_append.mpr (Or.inr (List.mem_cons.mpr (Or.inr h)))

theorem bstIns_ordT {cmp : α → α → Bool} (v : α) (nid : Nat) {t : RNode α}
    (h : OrdT cmp t) : OrdT cmp (bstIns cmp v nid t) := by
  induction h with
  | nil =>
    refine OrdT.node OrdT.nil OrdT.nil ?_ ?_ <;> simp [valsOf, RNode.inorder]
  | @node i c x l r hl hr hbl hbr ihl ihr =>
    simp only [bstIns]
    split
    · exact OrdT.node hl hr hbl hbr
    · rename_i hdup
      split
      · rename_i hvx
        refine OrdT.node ihl hr ?_ hbr
        intro y hy
        rcases bstIns_vals_sub v nid l y hy with h | h
        · subst h; exact hvx
        · exact hbl y h
      · rename_i hvx
        have hxv : cmp x v = true := by
          rcases hcx : cmp x v with _ | _
          · rcases hcv : cmp v x with _ | _
            · exact absurd (by simp [hcv, hcx]) hdup
            · exact absurd hcv (by simpa using hvx)
          · rfl
        refine OrdT.node hl ihr hbl ?_
        intro y hy
        rcases bstIns_vals_sub v nid r y hy with h | h
        · subst h; exact hxv
        · exact hbr y h

/-- Plugging the fresh red leaf into the context reported by
`Node::emplace` yields the functional insert. -/
theorem emplaceN_plug {cmp : α → α → Bool} (v : α) (nid : Nat) (t : RNode α) :
    ∀ (ctx0 ctxNew : Ctx α), emplaceN cmp v nid t ctx0 = Sum.inr ctxNew →
      plug ctxNew (RNode.node nid Color.red v RNode.nil RNode.nil) =
        plug ctx0 (bstIns cmp v nid t) := by
  induction t with
  | nil => intro ctx0 ctxNew h; simp [emplaceN] at h
  | node i c x l r ihl ihr =>
    intro ctx0 ctxNew h
    rw [emplaceN.eq_def] at h
    simp only [] at h
    by_cases hdup : (!(cmp v x) && !(cmp x v)) = true
    · rw [if_pos hdup] at h; exact absurd h (by simp)
    · rw [if_neg hdup] at h
      by_cases hvx : cmp v x = true
      · rw [if_pos hvx] at h
        cases l with
        | nil =>
          simp only [Sum.inr.injEq] at h
          subst h
          simp [plug, bstIns, mkF, mkNodeS, hdup, hvx]
        | node j2 d2 w2 a2 b2 =>
          rw [ihl _ _ h]
          simp [plug, bstIns, mkF, mkNodeS, hdup, hvx]
      · rw [if_neg hvx] at h
        have hvxf : cmp v x = false := by
          rcases hcv : cmp v x with _ | _
          · rfl
          · exact absurd hcv hvx
        have hxv : cmp x v = true := by
          rcases hcx : cmp x v with _ | _
          · exact absurd (by simp [hvxf, hcx]) hdup
          · rfl
        cases r with
        | nil =>
          simp only [Sum.inr.injEq] at h
          subst h
          simp [plug, bstIns, mkF, mkNodeS, hvxf, hxv]
        | node j2 d2 w2 a2 b2 =>
          rw [ihr _ _ h]
          simp [plug, bstIns, mkF, mkNodeS, hvxf, hxv]

/-- A duplicate report of `Node::emplace` names a node of the tree whose
value is equivalent to the probe. -/
theorem emplaceN_dup_mem {cmp : α → α → Bool} (v : α) (nid : Nat) (t : RNode α) :
    t ≠ RNode.nil →
    ∀ (ctx0 : Ctx α) (j : Nat), emplaceN cmp v nid t ctx0 = Sum.inl j →
      ∃ x, (j, x) ∈ RNode.inorder t ∧ cmp v x = false ∧ cmp x v = false := by
  induction t with
  | nil => intro h; exact absurd rfl h
  | node i c x l r ihl ihr =>
    intro _ ctx0 j h
    rw [emplaceN.eq_def] at h
    simp only [] at h
    by_cases hdup : (!(cmp v x) && !(cmp x v)) = true
    · rw [if_pos hdup] at h
      simp only [Sum.inl.injEq] at h
      subst h
      rw [Bool.and_eq_true, Bool.not_eq_true', Bool.not_eq_true'] at hdup
      exact ⟨x, by simp [RNode.inorder], hdup.1, hdup.2⟩
    · rw [if_neg hdup] at h
      by_cases hvx : cmp v x = true
      · rw [if_pos hvx] at h
        cases l with
        | nil => simp at h
        | node j2 d2 w2 a2 b2 =>
          obtain ⟨x', hmem, hc⟩ := ihl (by intro hcon; exact RNode.noConfusion hcon) _ j h
          refine ⟨x', ?_, hc.1, hc.2⟩
          show _ ∈ RNode.inorder (RNode.node j2 d2 w2 a2 b2) ++ (i, x) :: RNode.inorder r
          exact List.mem_append.mpr (Or.inl hmem)
      · rw [if_neg hvx] at h
        cases r with
        | nil => simp at h
        | node j2 d2 w2 a2 b2 =>
          obtain ⟨x', hmem, hc⟩ := ihr (by intro hcon; exact RNode.noConfusion hcon) _ j h
          refine ⟨x', ?_, hc.1, hc.2⟩
          show _ ∈ RNode.inorder l ++ (i, x) :: RNode.inorder (RNode.node j2 d2 w2 a2 b2)
          exact List.mem_append.mpr (Or.inr (List.mem_cons.mpr (Or.inr hmem)))

/-- On an ordered tree, `Node::emplace` detects any present equivalent. -/
theorem emplaceN_dup_of_mem {cmp : α → α → Bool} (hswo : SWO cmp) (v : α) (nid : Nat)
    {t : RNode α} (hord : OrdT cmp t) :
    ∀ (x₀ : α), x₀ ∈ valsOf t → cmp v x₀ = false → cmp x₀ v = false →
    ∀ ctx0 : Ctx α, ∃ j, emplaceN cmp v nid t ctx0 = Sum.inl j := by
  induction hord with
  | nil => intro x₀ hmem; simp [valsOf, RNode.inorder] at hmem
  | @node i c x l r hl hr hbl hbr ihl ihr =>
    intro x₀ hmem hc1 hc2 ctx0
    by_cases hdup : (!(cmp v x) && !(cmp x v)) = true
    · refine ⟨i, ?_⟩
      rw [emplaceN.eq_def]
      simp [hdup]
    · rw [valsOf_node] at hmem
      by_cases hvx : cmp v x = true
      · have hx0l : x₀ ∈ valsOf l := by
          rcases List.mem_append.mp hmem with h | h
          · exact h
          · rcases List.mem_cons.mp h with h | h
            · subst h; rw [hvx] at hc1; exact absurd hc1 (by simp)
            · have hxy : cmp x x₀ = true := hbr x₀ h
              have : cmp v x₀ = true := hswo.trans hvx hxy
              rw [this] at hc1; exact absurd hc1 (by simp)
        cases l with
        | nil => simp [valsOf, RNode.inorder] at hx0l
        | node j2 d2 w2 a2 b2 =>
          obtain ⟨j, hj⟩ := ihl x₀ hx0l hc1 hc2 (⟨Side.l, i, c, x, r⟩ :: ctx0)
          refine ⟨j, ?_⟩
          rw [emplaceN.eq_def]
          simp only [if_neg hdup, if_pos hvx]
          exact hj
      · have hvxf : cmp v x = false := by
          rcases hcv : cmp v x with _ | _
          · rfl
          · exact absurd hcv hvx
        have hxv : cmp x v = true := by
          rcases hcx : cmp x v with _ | _
          · exact absurd (by simp [hvxf, hcx]) hdup
          · rfl
        have hx0r : x₀ ∈ valsOf r := by
          rcases List.mem_append.mp hmem with h | h
          · have hyx : cmp x₀ x = true := hbl x₀ h
            have : cmp x₀ v = true := hswo.trans hyx hxv
            rw [this] at hc2; exact absurd hc2 (by simp)
          · rcases List.mem_cons.mp h with h | h
            · subst h; rw [hxv] at hc2; exact absurd hc2 (by simp)
            · exact h
        cases r with
        | nil => simp [valsOf, RNode.inorder] at hx0r
        | node j2 d2 w2 a2 b2 =>
          obtain ⟨j, hj⟩ := ihr x₀ hx0r hc1 hc2 (⟨Side.r, i, c, x, l⟩ :: ctx0)
          refine ⟨j, ?_⟩
          rw [emplaceN.eq_def]
          simp only [if_neg hdup, if_neg hvx]
          exact hj

/-- Splitting the in-order list of a functional insert when no
equivalent is present. -/
theorem bstIns_split {cmp : α → α → Bool} (v : α) (nid : Nat) (t : RNode α)
    (hno : ∀ x ∈ valsOf t, ¬(cmp v x = false ∧ cmp x v = false)) :
    ∃ L R, RNode.inorder t = L ++ R ∧
      RNode.inorder (bstIns cmp v nid t) = L ++ (nid, v) :: R := by
  induction t with
  | nil => exact ⟨[], [], rfl, by simp [bstIns, RNode.inorder]⟩
  | node i c x l r ihl ihr =>
    have hnx := hno x (by rw [valsOf_node]; simp)
    have hdup : (!(cmp v x) && !(cmp x v)) = false := by
      rcases hcv : cmp v x with _ | _
      · rcases hcx : cmp x v with _ | _
        · exact absurd ⟨hcv, hcx⟩ hnx
        · simp [hcv, hcx]
      · simp [hcv]
    simp only [bstIns, hdup, Bool.false_eq_true, if_false]
    by_cases hvx : cmp v x = true
    · obtain ⟨L, R, h1, h2⟩ := ihl (fun y hy => hno y (by rw [valsOf_node]; exact List.mem_append.mpr (Or.inl hy)))
      refine ⟨L, R ++ (i, x) :: RNode.inorder r, ?_, ?_⟩
      · simp [RNode.inorder, h1, List.append_assoc]
      · simp [hvx, RNode.inorder, h2, List.append_assoc]
    · obtain ⟨L, R, h1, h2⟩ := ihr (fun y hy => hno y (by rw [valsOf_node]; exact List.mem_append.mpr (Or.inr (List.mem_cons.mpr (Or.inr hy)))))
      have hvxf : cmp v x = false := by
        rcases hcv : cmp v x with _ | _
        · rfl
        · exact absurd hcv hvx
      refine ⟨RNode.inorder l ++ (i, x) :: L, R, ?_, ?_⟩
      · simp [RNode.inorder, h1, List.append_assoc]
      · simp [hvxf, RNode.inorder, h2, List.append_assoc]

/-- Two mutually incomparable members of a pairwise-ordered list are the
same entry. -/
theorem pairwise_unique {β : Type} {R : β → β → Prop} {l : List β}
    (hp : l.Pairwise R) {a b : β} (ha : a ∈ l) (hb : b ∈ l)
    (hab : ¬R a b) (hba : ¬R b a) : a = b := by
  induction l with
  | nil => simp at ha
  | cons hd tl ih =>
    rw [List.pairwise_cons] at hp
    rcases List.mem_cons.mp ha with ha' | ha' <;>
      rcases List.mem_cons.mp hb with hb' | hb'
    · rw [ha', hb']
    · subst ha'
      exact absurd (hp.1 b hb') hab
    · subst hb'
      exact absurd (hp.1 a ha') hba
    · exact ih hp.2 ha' hb'

end EmplaceLemmas

section RBInvariant

variable {α : Type}

/-- The classic red-black validity judgment: `IsRB t c h` says subtree
`t` has root color `c`, black-height `h`, and no red node with a red
child. -/
inductive IsRB : RNode α → Color → Nat → Prop where
  | nil : IsRB RNode.nil Color.black 0
  | red {i v l r h} : IsRB l Color.black h → IsRB r Color.black h →
      IsRB (RNode.node i Color.red v l r) Color.red h
  | black {i v l r cl cr h} : IsRB l cl h → IsRB r cr h →
      IsRB (RNode.node i Color.black v l r) Color.black (h + 1)

theorem isRB_colorOf {t : RNode α} {c h} (ht : IsRB t c h) : t.colorOf = c := by
  cases ht <;> rfl

theorem isRB_nil_inv {c : Color} {h : Nat} (ht : IsRB (RNode.nil : RNode α) c h) :
    c = Color.black ∧ h = 0 := by
  cases ht; exact ⟨rfl, rfl⟩

theorem isRB_red_inv {i v} {l r : RNode α} {c h}
    (ht : IsRB (RNode.node i Color.red v l r) c h) :
    c = Color.red ∧ IsRB l Color.black h ∧ IsRB r Color.black h := by
  cases ht; exact ⟨rfl, by assumption, by assumption⟩

theorem isRB_black_inv {i v} {l r : RNode α} {c h}
    (ht : IsRB (RNode.node i Color.black v l r) c h) :
    c = Color.black ∧ ∃ h0 cl cr, h = h0 + 1 ∧ IsRB l cl h0 ∧ IsRB r cr h0 := by
  cases ht
  exact ⟨rfl, _, _, _, rfl, by assumption, by assumption⟩

theorem isRB_ne_nil {t : RNode α} {c h} (ht : IsRB t c (h + 1)) : t ≠ RNode.nil := by
  intro hcon
  subst hcon
  obtain ⟨_, h0⟩ := isRB_nil_inv ht
  exact Nat.succ_ne_zero _ h0

theorem isRB_retag {i i' : Nat} {c : Color} {v v' : α} {l r : RNode α} {ct h}
    (ht : IsRB (RNode.node i c v l r) ct h) :
    IsRB (RNode.node i' c v' l r) ct h := by
  cases ht with
  | red hl hr => exact IsRB.red hl hr
  | black hl hr => exact IsRB.black hl hr

theorem childS_mkNodeS_d (d : Side) (i : Nat) (c : Color) (v : α) (a b : RNode α) :
    RNode.childS d (mkNodeS d i c v a b) = a := by
  cases d <;> rfl

theorem childS_mkNodeS_od (d : Side) (i : Nat) (c : Color) (v : α) (a b : RNode α) :
    RNode.childS d.other (mkNodeS d i c v a b) = b := by
  cases d <;> rfl

theorem isRB_mkNodeS_black {d : Side} {i : Nat} {v : α} {a b : RNode α} {ca cb h}
    (ha : IsRB a ca h) (hb : IsRB b cb h) :
    IsRB (mkNodeS d i Color.black v a b) Color.black (h + 1) := by
  cases d <;> exact IsRB.black (by assumption) (by assumption)

theorem isRB_mkNodeS_red {d : Side} {i : Nat} {v : α} {a b : RNode α} {h}
    (ha : IsRB a Color.black h) (hb : IsRB b Color.black h) :
    IsRB (mkNodeS d i Color.red v a b) Color.red h := by
  cases d <;> exact IsRB.red (by assumption) (by assumption)

theorem isRB_mkNodeS_inv {d : Side} {i : Nat} {c : Color} {v : α} {a b : RNode α}
    {ct h} (ht : IsRB (mkNodeS d i c v a b) ct h) :
    ct = c ∧ ((c = Color.red ∧ ∃ hc, h = hc ∧ IsRB a Color.black hc ∧ IsRB b Color.black hc) ∨
      (c = Color.black ∧ ∃ hc ca cb, h = hc + 1 ∧ IsRB a ca hc ∧ IsRB b cb hc)) := by
  cases d <;> cases c
  · obtain ⟨h1, h2, h3⟩ := isRB_red_inv ht
    exact ⟨h1, Or.inl ⟨rfl, _, rfl, h2, h3⟩⟩
  · obtain ⟨h1, h0, cl, cr, he, h2, h3⟩ := isRB_black_inv ht
    exact ⟨h1, Or.inr ⟨rfl, h0, cl, cr, he, h2, h3⟩⟩
  · obtain ⟨h1, h2, h3⟩ := isRB_red_inv ht
    exact ⟨h1, Or.inl ⟨rfl, _, rfl, h3, h2⟩⟩
  · obtain ⟨h1, h0, cl, cr, he, h2, h3⟩ := isRB_black_inv ht
    exact ⟨h1, Or.inr ⟨rfl, h0, cr, cl, he, h3, h2⟩⟩

theorem nullOrBlackB_isRB {m : RNode α} {cm h} (hm : IsRB m cm h) :
    (nullOrBlackB m = true ↔ cm = Color.black) := by
  cases m with
  | nil => obtain ⟨h1, _⟩ := isRB_nil_inv hm; simp [nullOrBlackB, h1]
  | node i c v l r =>
    have := isRB_colorOf hm
    simp only [RNode.colorOf] at this
    subst this
    simp [nullOrBlackB]

theorem setRootColor_black_isRB {t : RNode α} {c h} (ht : IsRB t c h) :
    ∃ h', IsRB (setRootColor Color.black t) Color.black h' := by
  cases ht with
  | nil => exact ⟨0, IsRB.nil⟩
  | red hl hr => exact ⟨_, IsRB.black hl hr⟩
  | black hl hr => exact ⟨_, IsRB.black hl hr⟩

/-- Validity of a context seen from a hole expecting black-height `h`;
the color index is the color of the immediate parent frame (black for
the root position).  A red frame requires an actual black frame above
it, so the outermost frame of a nonempty valid context is always black
(the root is black). -/
inductive CtxRB : Ctx α → Nat → Color → Prop where
  | nil {h} : CtxRB [] h Color.black
  | blackF {sd i v s cs rest h c} : IsRB s cs h → CtxRB rest (h + 1) c →
      CtxRB (⟨sd, i, Color.black, v, s⟩ :: rest) h Color.black
  | redF {sd i v s g rest h} : IsRB s Color.black h → CtxRB (g :: rest) h Color.black →
      CtxRB (⟨sd, i, Color.red, v, s⟩ :: g :: rest) h Color.red

theorem ctxRB_head_color {f : Frame α} {rest h c} (hc : CtxRB (f :: rest) h c) :
    f.color = c := by
  cases hc <;> rfl

theorem ctxRB_cons_inv {f : Frame α} {rest : Ctx α} {h c} (hc : CtxRB (f :: rest) h c) :
    (f.color = Color.black ∧ ∃ cs c2, IsRB f.sib cs h ∧ CtxRB rest (h + 1) c2) ∨
    (f.color = Color.red ∧ rest ≠ [] ∧ IsRB f.sib Color.black h ∧
      CtxRB rest h Color.black) := by
  cases hc with
  | blackF hs hrest => exact Or.inl ⟨rfl, _, _, hs, hrest⟩
  | redF hs hrest => exact Or.inr ⟨rfl, by simp, hs, hrest⟩

/-- Soundness of `CtxRB`: plugging a fitting subtree yields a valid
red-black tree, with a black root whenever the context is nonempty. -/
theorem ctxRB_plug {ctx : Ctx α} {h cf} (hc : CtxRB ctx h cf) :
    ∀ {t : RNode α} {ct}, IsRB t ct h → (cf = Color.red → ct = Color.black) →
    ∃ c' h', IsRB (plug ctx t) c' h' ∧ (ctx ≠ [] → c' = Color.black) := by
  induction hc with
  | nil =>
    intro t ct ht _
    exact ⟨ct, _, ht, fun hcon => absurd rfl hcon⟩
  | @blackF sd i v s cs rest h c hs hrest ih =>
    intro t ct ht _
    have hmk : IsRB (mkF ⟨sd, i, Color.black, v, s⟩ t) Color.black (h + 1) :=
      isRB_mkNodeS_black ht hs
    obtain ⟨c', h', hp, hne⟩ := ih hmk (fun _ => rfl)
    refine ⟨c', h', hp, fun _ => ?_⟩
    rcases rest with _ | ⟨g, rest2⟩
    · have : c' = Color.black := by
        have := isRB_colorOf hp
        simp only [plug] at hp ⊢
        rw [← this]
        have h2 := isRB_colorOf hmk
        simp only [plug]
        rw [h2]
      exact this
    · exact hne (by simp)
  | @redF sd i v s g rest h hs hrest ih =>
    intro t ct ht hcomp
    have hct : ct = Color.black := hcomp rfl
    subst hct
    have hmk : IsRB (mkF ⟨sd, i, Color.red, v, s⟩ t) Color.red h :=
      isRB_mkNodeS_red ht hs
    obtain ⟨c', h', hp, hne⟩ := ih hmk (by intro hcon; exact absurd hcon (by simp))
    exact ⟨c', h', hp, fun _ => hne (by simp)⟩

/-- Decomposing a valid tree along a zipper: the context is valid for
the focus's black-height, and a red parent forces a black focus. -/
theorem plug_rb_decomp :
    ∀ (ctx : Ctx α) (s : RNode α) (H : Nat),
      IsRB (plug ctx s) Color.black H →
      ∃ h cs cf, IsRB s cs h ∧ CtxRB ctx h cf ∧ (cf = Color.red → cs = Color.black) := by
  intro ctx
  induction ctx with
  | nil =>
    intro s H hp
    exact ⟨H, Color.black, Color.black, hp, CtxRB.nil, fun _ => rfl⟩
  | cons f rest ih =>
    intro s H hp
    obtain ⟨h', cs', cf', hmk, hctx, hcomp⟩ := ih (mkF f s) H hp
    have hcol : cs' = f.color := by
      have := isRB_colorOf hmk
      rw [← this]
      rcases f with ⟨sd, i, c, v, sib⟩
      cases sd <;> rfl
    rcases f with ⟨sd, i, fc, v, sib⟩
    cases fc
    · -- red frame
      have hcs : cs' = Color.red := hcol
      subst hcs
      have hmk' := hmk
      obtain ⟨_, hinv⟩ := isRB_mkNodeS_inv (d := sd) hmk'
      rcases hinv with ⟨_, hc, he, hsrb, hsibrb⟩ | ⟨hcon, _⟩
      · have hcf : cf' = Color.black := by
          rcases hcf' : cf' with _ | _
          · exact absurd (hcomp hcf') (by simp)
          · rfl
        subst hcf
        rcases rest with _ | ⟨g, rest2⟩
        · -- red root: contradicts the root-black plug
          exfalso
          simp only [plug] at hp
          have := isRB_colorOf hp
          have h2 := isRB_colorOf hmk
          rw [this] at h2
          exact Color.noConfusion h2
        · subst he
          exact ⟨h', Color.black, Color.red, hsrb,
            CtxRB.redF hsibrb hctx, fun _ => rfl⟩
      · exact absurd hcon (by simp)
    · -- black frame
      have hcs : cs' = Color.black := hcol
      subst hcs
      obtain ⟨_, hinv⟩ := isRB_mkNodeS_inv (d := sd) hmk
      rcases hinv with ⟨hcon, _⟩ | ⟨_, h0, ca, cb, he, hsrb, hsibrb⟩
      · exact absurd hcon (by simp)
      · subst he
        exact ⟨h0, ca, Color.black, hsrb,
          CtxRB.blackF hsibrb hctx, by intro hcon; exact absurd hcon (by simp)⟩

/-- Equivalence of the executable red-black checkers with `IsRB`. -/
theorem isRB_checkers {t : RNode α} {c h} (ht : IsRB t c h) :
    bhOf t = some h ∧ noRedRedB t = true := by
  induction ht with
  | nil => exact ⟨rfl, rfl⟩
  | red hl hr ihl ihr =>
    refine ⟨?_, ?_⟩
    · simp [bhOf, ihl.1, ihr.1]
    · have h1 : nullOrBlackB _ = true := (nullOrBlackB_isRB hl).mpr rfl
      have h2 : nullOrBlackB _ = true := (nullOrBlackB_isRB hr).mpr rfl
      simp [noRedRedB, h1, h2, ihl.2, ihr.2]
  | black hl hr ihl ihr =>
    refine ⟨?_, ?_⟩
    · simp [bhOf, ihl.1, ihr.1]
    · simp [noRedRedB, ihl.2, ihr.2]

theorem isRB_of_checkers {t : RNode α} :
    ∀ {h : Nat}, bhOf t = some h → noRedRedB t = true → IsRB t t.colorOf h := by
  induction t with
  | nil =>
    intro h hbh _
    simp only [bhOf, Option.some.injEq] at hbh
    subst hbh
    exact IsRB.nil
  | node i c v l r ihl ihr =>
    intro h hbh hnr
    simp only [bhOf] at hbh
    rcases hbl : bhOf l with _ | hl0 <;> rw [hbl] at hbh
    · exact absurd hbh (by simp)
    rcases hbr : bhOf r with _ | hr0 <;> rw [hbr] at hbh
    · exact absurd hbh (by simp)
    simp only [] at hbh
    by_cases heq : hl0 = hr0
    · rw [if_pos heq] at hbh
      simp only [Option.some.injEq] at hbh
      simp only [noRedRedB, Bool.and_eq_true] at hnr
      obtain ⟨⟨hred, hnl⟩, hnr2⟩ := hnr
      have hrl := ihl hbl hnl
      have hrr := ihr hbr hnr2
      cases c with
      | black =>
        subst hbh
        rw [show (RNode.node i Color.black v l r).colorOf = Color.black from rfl]
        subst heq
        exact IsRB.black hrl hrr
      | red =>
        subst hbh
        have hredc : (nullOrBlackB l && nullOrBlackB r) = true := by
          simpa using hred
        rw [Bool.and_eq_true] at hredc
        have hcl : l.colorOf = Color.black := by
          rcases l with _ | ⟨li, lc, lv, l1, l2⟩
          · rfl
          · simp only [nullOrBlackB, decide_eq_true_eq] at hredc
            exact hredc.1
        have hcr : r.colorOf = Color.black := by
          rcases r with _ | ⟨ri, rc2, rv, r1, r2⟩
          · rfl
          · simp only [nullOrBlackB, decide_eq_true_eq] at hredc
            exact hredc.2
        rw [hcl] at hrl
        rw [hcr] at hrr
        subst heq
        exact IsRB.red hrl hrr
    · rw [if_neg heq] at hbh
      exact absurd hbh (by simp)

/-- A tree passes the executable red-black checks exactly when it is a
valid red-black tree with a black root. -/
theorem rb_checkers_iff (t : RNode α) :
    ((bhOf t).isSome = true ∧ noRedRedB t = true ∧ rootBlackB t = true) ↔
      ∃ h, IsRB t Color.black h := by
  constructor
  · rintro ⟨hbh, hnr, hrb⟩
    rcases hb : bhOf t with _ | h
    · rw [hb] at hbh; simp at hbh
    · have := isRB_of_checkers hb hnr
      have hcol : t.colorOf = Color.black := by
        rcases t with _ | ⟨i, c, v, l, r⟩
        · rfl
        · simpa [rootBlackB, RNode.colorOf] using hrb
      rw [hcol] at this
      exact ⟨h, this⟩
  · rintro ⟨h, ht⟩
    obtain ⟨h1, h2⟩ := isRB_checkers ht
    refine ⟨by simp [h1], h2, ?_⟩
    have := isRB_colorOf ht
    rcases t with _ | ⟨i, c, v, l, r⟩
    · rfl
    · simp only [RNode.colorOf] at this
      simp [rootBlackB, this]

end RBInvariant

section InsertRB

variable {α : Type}

/-- Descending `Node::emplace` maintains context validity: the reported
attach context expects black-height 0 (the empty slot). -/
theorem emplaceN_ctxRB {cmp : α → α → Bool} (v : α) (nid : Nat) :
    ∀ (t : RNode α) (ctx0 : Ctx α) (hh : Nat) (ct cf : Color),
      IsRB t ct hh → CtxRB ctx0 hh cf → (cf = Color.red → ct = Color.black) →
      (ctx0 = [] → ct = Color.black) →
      ∀ ctxNew, emplaceN cmp v nid t ctx0 = Sum.inr ctxNew →
        ∃ cfN, CtxRB ctxNew 0 cfN := by
  intro t
  induction t with
  | nil => intro ctx0 hh ct cf _ _ _ _ ctxNew h; simp [emplaceN] at h
  | node i c x l r ihl ihr =>
    intro ctx0 hh ct cf ht hctx hcomp hroot ctxNew h
    rw [emplaceN.eq_def] at h
    simp only [] at h
    have hcol : ct = c := by
      have := isRB_colorOf ht
      simp only [RNode.colorOf] at this
      exact this.symm
    subst hcol
    by_cases hdup : (!(cmp v x) && !(cmp x v)) = true
    · rw [if_pos hdup] at h; exact absurd h (by simp)
    · rw [if_neg hdup] at h
      by_cases hvx : cmp v x = true
      · rw [if_pos hvx] at h
        cases ct with
        | red =>
          obtain ⟨_, hlrb, hrrb⟩ := isRB_red_inv ht
          have hcf : cf = Color.black := by
            rcases hcf' : cf with _ | _
            · exact absurd (hcomp hcf') (by simp)
            · rfl
          subst hcf
          have hne : ctx0 ≠ [] := by
            intro hcon
            exact absurd (hroot hcon) (by simp)
          rcases ctx0 with _ | ⟨g, rest⟩
          · exact absurd rfl hne
          have hctx' : CtxRB (⟨Side.l, i, Color.red, x, r⟩ :: g :: rest) hh Color.red :=
            CtxRB.redF hrrb hctx
          cases l with
          | nil =>
            simp only [Sum.inr.injEq] at h
            subst h
            obtain ⟨_, h0⟩ := isRB_nil_inv hlrb
            subst h0
            exact ⟨Color.red, hctx'⟩
          | node j2 d2 w2 a2 b2 =>
            exact ihl _ _ _ _ hlrb hctx' (fun _ => rfl)
              (by intro hcon; exact List.noConfusion hcon) _ h
        | black =>
          obtain ⟨_, h0, cl, cr, he, hlrb, hrrb⟩ := isRB_black_inv ht
          subst he
          have hctx' : CtxRB (⟨Side.l, i, Color.black, x, r⟩ :: ctx0) h0 Color.black :=
            CtxRB.blackF hrrb hctx
          cases l with
          | nil =>
            simp only [Sum.inr.injEq] at h
            subst h
            obtain ⟨_, h0'⟩ := isRB_nil_inv hlrb
            subst h0'
            exact ⟨Color.black, hctx'⟩
          | node j2 d2 w2 a2 b2 =>
            exact ihl _ _ _ _ hlrb hctx' (by intro hcon; exact absurd hcon (by simp))
              (by intro hcon; exact List.noConfusion hcon) _ h
      · rw [if_neg hvx] at h
        cases ct with
        | red =>
          obtain ⟨_, hlrb, hrrb⟩ := isRB_red_inv ht
          have hcf : cf = Color.black := by
            rcases hcf' : cf with _ | _
            · exact absurd (hcomp hcf') (by simp)
            · rfl
          subst hcf
          have hne : ctx0 ≠ [] := by
            intro hcon
            exact absurd (hroot hcon) (by simp)
          rcases ctx0 with _ | ⟨g, rest⟩
          · exact absurd rfl hne
          have hctx' : CtxRB (⟨Side.r, i, Color.red, x, l⟩ :: g :: rest) hh Color.red :=
            CtxRB.redF hlrb hctx
          cases r with
          | nil =>
            simp only [Sum.inr.injEq] at h
            subst h
            obtain ⟨_, h0⟩ := isRB_nil_inv hrrb
            subst h0
            exact ⟨Color.red, hctx'⟩
          | node j2 d2 w2 a2 b2 =>
            exact ihr _ _ _ _ hrrb hctx' (fun _ => rfl)
              (by intro hcon; exact List.noConfusion hcon) _ h
        | black =>
          obtain ⟨_, h0, cl, cr, he, hlrb, hrrb⟩ := isRB_black_inv ht
          subst he
          have hctx' : CtxRB (⟨Side.r, i, Color.black, x, l⟩ :: ctx0) h0 Color.black :=
            CtxRB.blackF hlrb hctx
          cases r with
          | nil =>
            simp only [Sum.inr.injEq] at h
            subst h
            obtain ⟨_, h0'⟩ := isRB_nil_inv hrrb
            subst h0'
            exact ⟨Color.black, hctx'⟩
          | node j2 d2 w2 a2 b2 =>
            exact ihr _ _ _ _ hrrb hctx' (by intro hcon; exact absurd hcon (by simp))
              (by intro hcon; exact List.noConfusion hcon) _ h

/-- `fixupInsert_` restores validity: from a red focus fitting a valid
context, the resulting whole tree is a valid red-black tree (whose root
the caller then blackens). -/
theorem fixupInsert_rb (n : RNode α) (ctx : Ctx α) :
    ∀ (h : Nat) (cf : Color), CtxRB ctx h cf →
      (IsRB n Color.red h ∨ (ctx = [] ∧ ∃ cb, IsRB n cb h)) →
      ∃ c' h', IsRB (fixupInsert n ctx) c' h' := by
  induction n, ctx using fixupInsert.induct with
  | case1 n =>
    intro h cf _ hn
    rcases hn with hn | ⟨_, cb, hn⟩
    · exact ⟨Color.red, h, by simpa [fixupInsert] using hn⟩
    · exact ⟨cb, h, by simpa [fixupInsert] using hn⟩
  | case2 n pf rest hc =>
    intro h cf hctx hn
    have hn' : IsRB n Color.red h := by
      rcases hn with hn | ⟨hcon, _⟩
      · exact hn
      · exact absurd hcon (by simp)
    have hcf : cf = pf.color := (ctxRB_head_color hctx).symm
    have hstep : fixupInsert n (pf :: rest) = plug (pf :: rest) n := by
      rw [fixupInsert.eq_def]
      simp [if_pos hc]
    rw [hstep]
    obtain ⟨c', h', hp, _⟩ := ctxRB_plug hctx hn' (by
      intro hred
      rw [hcf] at hred
      exact absurd hred hc)
    exact ⟨c', h', hp⟩
  | case3 n pf hc =>
    intro h cf hctx hn
    have hredp : pf.color = Color.red := not_not.mp hc
    exfalso
    rcases ctxRB_cons_inv hctx with ⟨hpb, _⟩ | ⟨_, hne, _, _⟩
    · rw [hredp] at hpb; exact Color.noConfusion hpb
    · exact hne rfl
  | case4 n pf hc gf rest2 ui uv ul ur heq par gcol s ih =>
    intro h cf hctx hn
    have hredp : pf.color = Color.red := not_not.mp hc
    have hn' : IsRB n Color.red h := by
      rcases hn with hn | ⟨hcon, _⟩
      · exact hn
      · exact absurd hcon (by simp)
    have hstep : fixupInsert n (pf :: gf :: rest2) = fixupInsert s rest2 := by
      simp only [fixupInsert, hredp, ne_eq, not_true_eq_false, if_false, heq]
    rw [hstep]
    rcases ctxRB_cons_inv hctx with ⟨hpb, _⟩ | ⟨_, _, hpsib, hrest⟩
    · rw [hredp] at hpb; exact absurd hpb (by simp)
    rcases ctxRB_cons_inv hrest with ⟨_, cs2, c3, hgsib, hrest2⟩ | ⟨hgr, _, _, _⟩
    swap
    · have := ctxRB_head_color hrest
      rw [hgr] at this
      exact absurd this (by simp)
    have huncle : IsRB (RNode.node ui Color.red uv ul ur) cs2 h := heq ▸ hgsib
    obtain ⟨_, hul, hur⟩ := isRB_red_inv huncle
    have hpar : IsRB par Color.black (h + 1) := by
      show IsRB (mkF ⟨pf.side, pf.id, Color.black, pf.val, pf.sib⟩ n) _ _
      exact isRB_mkNodeS_black hn' hpsib
    have hunc : IsRB (RNode.node ui Color.black uv ul ur) Color.black (h + 1) :=
      IsRB.black hul hur
    rcases rest2 with _ | ⟨g2, rest4⟩
    · have hg : gcol = Color.black := rfl
      have hs : IsRB s Color.black (h + 2) := by
        show IsRB (mkNodeS gf.side gf.id gcol gf.val par
          (RNode.node ui Color.black uv ul ur)) _ _
        rw [hg]
        exact isRB_mkNodeS_black hpar hunc
      exact ih _ Color.black CtxRB.nil (Or.inr ⟨rfl, _, hs⟩)
    · have hg : gcol = Color.red := rfl
      have hs : IsRB s Color.red (h + 1) := by
        show IsRB (mkNodeS gf.side gf.id gcol gf.val par
          (RNode.node ui Color.black uv ul ur)) _ _
        rw [hg]
        exact isRB_mkNodeS_red hpar hunc
      exact ih _ c3 hrest2 (Or.inl hs)
  | case5 n pf hc gf rest2 hnored =>
    intro h cf hctx hn
    have hredp : pf.color = Color.red := not_not.mp hc
    have hn' : IsRB n Color.red h := by
      rcases hn with hn | ⟨hcon, _⟩
      · exact hn
      · exact absurd hcon (by simp)
    have hstep : fixupInsert n (pf :: gf :: rest2) = plug rest2 (insRebuild pf gf n) := by
      simp only [fixupInsert, hredp, ne_eq, not_true_eq_false, if_false]
    rw [hstep]
    rcases ctxRB_cons_inv hctx with ⟨hpb, _⟩ | ⟨_, _, hpsib, hrest⟩
    · rw [hredp] at hpb; exact absurd hpb (by simp)
    rcases ctxRB_cons_inv hrest with ⟨_, cs2, c3, hgsib, hrest2⟩ | ⟨hgr, _, _, _⟩
    swap
    · have := ctxRB_head_color hrest
      rw [hgr] at this
      exact absurd this (by simp)
    have huncb : IsRB gf.sib Color.black h := by
      rcases hs2 : gf.sib with _ | ⟨si, sc, sv, sl, sr⟩
      · rw [hs2] at hgsib
        obtain ⟨hc1, hh0⟩ := isRB_nil_inv hgsib
        rw [hh0]
        exact IsRB.nil
      · cases sc with
        | red => exact absurd hs2 (by intro hcon; exact hnored si sv sl sr hcon)
        | black =>
          rw [hs2] at hgsib
          have hcol := isRB_colorOf hgsib
          simp only [RNode.colorOf] at hcol
          rw [← hcol] at hgsib
          exact hgsib
    have hrb : IsRB (insRebuild pf gf n) Color.black (h + 1) := by
      by_cases hside : pf.side = gf.side
      · simp only [insRebuild, if_pos hside]
        exact isRB_mkNodeS_black hn' (isRB_mkNodeS_red hpsib huncb)
      · rcases hnn : n with _ | ⟨ni, nc, nv, n1, n2⟩
        · rw [hnn] at hn'
          exact absurd (isRB_nil_inv hn').1 (by simp)
        · rw [hnn] at hn'
          have hnc : nc = Color.red := by
            have := isRB_colorOf hn'
            simp only [RNode.colorOf] at this
            exact this
          subst hnc
          obtain ⟨_, hn1, hn2⟩ := isRB_red_inv hn'
          have hchd : IsRB (RNode.childS gf.side (RNode.node ni Color.red nv n1 n2))
              Color.black h := by
            cases gf.side <;> simpa [RNode.childS]
          have hchod : IsRB (RNode.childS gf.side.other (RNode.node ni Color.red nv n1 n2))
              Color.black h := by
            cases gf.side <;> simpa [RNode.childS, Side.other]
          simp only [insRebuild, if_neg hside, hnn, hredp]
          exact isRB_mkNodeS_black
            (isRB_mkNodeS_red hpsib hchd)
            (isRB_mkNodeS_red hchod huncb)
    obtain ⟨c', h', hp, _⟩ := ctxRB_plug hrest2 hrb (fun _ => rfl)
    exact ⟨c', h', hp⟩

end InsertRB

section DeleteRB

variable {α : Type}

theorem setRootColor_mkNodeS (c : Color) (d : Side) (i : Nat) (c' : Color) (v : α)
    (a b : RNode α) :
    setRootColor c (mkNodeS d i c' v a b) = mkNodeS d i c v a b := by
  cases d <;> rfl

theorem isRB_black_zero {t : RNode α} (ht : IsRB t Color.black 0) : t = RNode.nil := by
  cases t with
  | nil => rfl
  | node i c v l r =>
    have := isRB_colorOf ht
    simp only [RNode.colorOf] at this
    subst this
    obtain ⟨_, h0, cl, cr, he, _, _⟩ := isRB_black_inv ht
    exact absurd he.symm (Nat.succ_ne_zero h0)

/-- The height bookkeeping of the deletion fixup: a parent of color `pc`
occupies a hole expecting `h + 2` when black, `h + 1` when red, where
`h` is the black-height of the deficient child. -/
def delH (pc : Color) (h : Nat) : Nat :=
  match pc with
  | Color.black => h + 2
  | Color.red => h + 1

/-- The core of `fixupDelete_` after the red-sibling case: with a
deficient child of black-height `h` on side `d` and a black sibling
whose children have black-height `h`, one step either fully repairs the
subtree or propagates the deficit up. -/
theorem fixupInner_rb (d : Side) (pi : Nat) (pc : Color) (pv : α)
    {dsub near far : RNode α} {h : Nat} {cn1 cn2 : Color}
    (mi : Nat) (mv : α)
    (hd : IsRB dsub Color.black h)
    (hnear : IsRB near cn1 h) (hfar : IsRB far cn2 h) :
    (∃ S cS, fixupInner (mkNodeS d pi pc pv dsub (mkNodeS d mi Color.black mv near far)) d
        = FixRes.done S ∧ IsRB S cS (delH pc h) ∧ (cS = Color.red → pc = Color.red)) ∨
    (∃ S, fixupInner (mkNodeS d pi pc pv dsub (mkNodeS d mi Color.black mv near far)) d
        = FixRes.up S ∧ IsRB S Color.black (h + 1) ∧ pc = Color.black) := by
  have hnb : IsRB (mkNodeS d mi Color.black mv near far) Color.black (h + 1) :=
    isRB_mkNodeS_black hnear hfar
  cases d
  · -- d = Side.l : P = node pi pc pv dsub (node mi black mv near far)
    simp only [mkNodeS] at hnb ⊢
    simp only [fixupInner, Side.other, RNode.childS]
    by_cases hb : (nullOrBlackB near && nullOrBlackB far) = true
    · rw [Bool.and_eq_true] at hb
      have hc1 : cn1 = Color.black := (nullOrBlackB_isRB hnear).mp hb.1
      have hc2 : cn2 = Color.black := (nullOrBlackB_isRB hfar).mp hb.2
      subst hc1; subst hc2
      have hred : IsRB (RNode.node mi Color.red mv near far) Color.red h :=
        IsRB.red hnear hfar
      simp only [hb.1, hb.2, Bool.and_self, if_true]
      cases pc with
      | red =>
        refine Or.inl ⟨setRootColor Color.black (mkNodeS Side.l pi Color.red pv dsub
            (RNode.node mi Color.red mv near far)), Color.black, by simp, ?_,
            by intro hcon; exact absurd hcon (by simp)⟩
        rw [setRootColor_mkNodeS]
        show IsRB (mkNodeS Side.l pi Color.black pv dsub
          (RNode.node mi Color.red mv near far)) Color.black (h + 1)
        simp only [mkNodeS]
        exact IsRB.black hd hred
      | black =>
        refine Or.inr ⟨mkNodeS Side.l pi Color.black pv dsub
            (RNode.node mi Color.red mv near far), by simp, ?_, rfl⟩
        simp only [mkNodeS]
        exact IsRB.black hd hred
    · have hbf : (nullOrBlackB near && nullOrBlackB far) = false := by
        rcases hx : (nullOrBlackB near && nullOrBlackB far) with _ | _
        · rfl
        · exact absurd hx hb
      simp only [hbf, Bool.false_eq_true, if_false]
      by_cases hf : nullOrBlackB far = true
      · have hc2 : cn2 = Color.black := (nullOrBlackB_isRB hfar).mp hf
        subst hc2
        have hnearred : cn1 = Color.red := by
          rcases hcn : cn1 with _ | _
          · rfl
          · exfalso
            have : nullOrBlackB near = true := (nullOrBlackB_isRB hnear).mpr hcn
            rw [this, hf] at hbf
            simp at hbf
        subst hnearred
        rcases hnn : near with _ | ⟨qi, qc, qv, q1, q2⟩
        · rw [hnn] at hnear
          exact absurd (isRB_nil_inv hnear).1 (by simp)
        · rw [hnn] at hnear
          have hqc : qc = Color.red := by
            have := isRB_colorOf hnear
            simp only [RNode.colorOf] at this
            exact this
          subst hqc
          obtain ⟨_, hq1, hq2⟩ := isRB_red_inv hnear
          simp only [hf, if_true, RNode.childS, Side.other]
          refine Or.inl ⟨_, pc, rfl, ?_, fun hx => hx⟩
          have hin1 : IsRB (mkNodeS Side.l pi Color.black pv dsub q1) Color.black (h + 1) :=
            isRB_mkNodeS_black hd hq1
          have hin2 : IsRB (setRootColor Color.black
              (mkNodeS Side.l mi Color.red mv q2 far)) Color.black (h + 1) := by
            rw [setRootColor_mkNodeS]
            exact isRB_mkNodeS_black hq2 hfar
          cases pc with
          | red =>
            show IsRB (mkNodeS Side.l qi Color.red qv _ _) Color.red (delH Color.red h)
            show IsRB (mkNodeS Side.l qi Color.red qv _ _) Color.red (h + 1)
            exact isRB_mkNodeS_red hin1 hin2
          | black =>
            show IsRB (mkNodeS Side.l qi Color.black qv _ _) Color.black (h + 2)
            exact isRB_mkNodeS_black hin1 hin2
      · have hff : nullOrBlackB far = false := by
          rcases hx : nullOrBlackB far with _ | _
          · rfl
          · exact absurd hx hf
        have hc2 : cn2 = Color.red := by
          rcases hcn : cn2 with _ | _
          · rfl
          · exfalso
            have : nullOrBlackB far = true := (nullOrBlackB_isRB hfar).mpr hcn
            rw [this] at hff
            exact Bool.noConfusion hff
        subst hc2
        rcases hfn : far with _ | ⟨fi, fc, fv, f1, f2⟩
        · rw [hfn] at hfar
          exact absurd (isRB_nil_inv hfar).1 (by simp)
        · rw [hfn] at hfar
          have hfc : fc = Color.red := by
            have := isRB_colorOf hfar
            simp only [RNode.colorOf] at this
            exact this
          subst hfc
          obtain ⟨_, hf1, hf2⟩ := isRB_red_inv hfar
          rw [if_neg (by simp [nullOrBlackB])]
          refine Or.inl ⟨_, pc, rfl, ?_, fun hx => hx⟩
          have hin1 : IsRB (mkNodeS Side.l pi Color.black pv dsub near) Color.black (h + 1) :=
            isRB_mkNodeS_black hd hnear
          have hin2 : IsRB (setRootColor Color.black
              (RNode.node fi Color.red fv f1 f2)) Color.black (h + 1) := by
            show IsRB (RNode.node fi Color.black fv f1 f2) Color.black (h + 1)
            exact IsRB.black hf1 hf2
          cases pc with
          | red =>
            show IsRB (mkNodeS Side.l mi Color.red mv _ _) Color.red (h + 1)
            exact isRB_mkNodeS_red hin1 hin2
          | black =>
            show IsRB (mkNodeS Side.l mi Color.black mv _ _) Color.black (h + 2)
            exact isRB_mkNodeS_black hin1 hin2
  · -- d = Side.r : P = node pi pc pv (node mi black mv far near) dsub
    simp only [mkNodeS] at hnb ⊢
    simp only [fixupInner, Side.other, RNode.childS]
    by_cases hb : (nullOrBlackB far && nullOrBlackB near) = true
    · rw [Bool.and_eq_true] at hb
      have hc1 : cn1 = Color.black := (nullOrBlackB_isRB hnear).mp hb.2
      have hc2 : cn2 = Color.black := (nullOrBlackB_isRB hfar).mp hb.1
      subst hc1; subst hc2
      have hred : IsRB (RNode.node mi Color.red mv far near) Color.red h :=
        IsRB.red hfar hnear
      simp only [hb.1, hb.2, Bool.and_self, if_true]
      cases pc with
      | red =>
        refine Or.inl ⟨setRootColor Color.black (mkNodeS Side.r pi Color.red pv dsub
            (RNode.node mi Color.red mv far near)), Color.black, by simp, ?_,
            by intro hcon; exact absurd hcon (by simp)⟩
        rw [setRootColor_mkNodeS]
        show IsRB (mkNodeS Side.r pi Color.black pv dsub
          (RNode.node mi Color.red mv far near)) Color.black (h + 1)
        simp only [mkNodeS]
        exact IsRB.black hred hd
      | black =>
        refine Or.inr ⟨mkNodeS Side.r pi Color.black pv dsub
            (RNode.node mi Color.red mv far near), by simp, ?_, rfl⟩
        simp only [mkNodeS]
        exact IsRB.black hred hd
    · have hbf : (nullOrBlackB far && nullOrBlackB near) = false := by
        rcases hx : (nullOrBlackB far && nullOrBlackB near) with _ | _
        · rfl
        · exact absurd hx hb
      simp only [hbf, Bool.false_eq_true, if_false]
      by_cases hf : nullOrBlackB far = true
      · have hc2 : cn2 = Color.black := (nullOrBlackB_isRB hfar).mp hf
        subst hc2
        have hnearred : cn1 = Color.red := by
          rcases hcn : cn1 with _ | _
          · rfl
          · exfalso
            have : nullOrBlackB near = true := (nullOrBlackB_isRB hnear).mpr hcn
            rw [this, hf] at hbf
            simp at hbf
        subst hnearred
        rcases hnn : near with _ | ⟨qi, qc, qv, q1, q2⟩
        · rw [hnn] at hnear
          exact absurd (isRB_nil_inv hnear).1 (by simp)
        · rw [hnn] at hnear
          have hqc : qc = Color.red := by
            have := isRB_colorOf hnear
            simp only [RNode.colorOf] at this
            exact this
          subst hqc
          obtain ⟨_, hq1, hq2⟩ := isRB_red_inv hnear
          simp only [hf, if_true, RNode.childS, Side.other]
          refine Or.inl ⟨_, pc, rfl, ?_, fun hx => hx⟩
          have hin1 : IsRB (mkNodeS Side.r pi Color.black pv dsub q2) Color.black (h + 1) :=
            isRB_mkNodeS_black hd hq2
          have hin2 : IsRB (setRootColor Color.black
              (mkNodeS Side.r mi Color.red mv q1 far)) Color.black (h + 1) := by
            rw [setRootColor_mkNodeS]
            exact isRB_mkNodeS_black hq1 hfar
          cases pc with
          | red =>
            show IsRB (mkNodeS Side.r qi Color.red qv _ _) Color.red (h + 1)
            exact isRB_mkNodeS_red hin1 hin2
          | black =>
            show IsRB (mkNodeS Side.r qi Color.black qv _ _) Color.black (h + 2)
            exact isRB_mkNodeS_black hin1 hin2
      · have hff : nullOrBlackB far = false := by
          rcases hx : nullOrBlackB far with _ | _
          · rfl
          · exact absurd hx hf
        have hc2 : cn2 = Color.red := by
          rcases hcn : cn2 with _ | _
          · rfl
          · exfalso
            have : nullOrBlackB far = true := (nullOrBlackB_isRB hfar).mpr hcn
            rw [this] at hff
            exact Bool.noConfusion hff
        subst hc2
        rcases hfn : far with _ | ⟨fi, fc, fv, f1, f2⟩
        · rw [hfn] at hfar
          exact absurd (isRB_nil_inv hfar).1 (by simp)
        · rw [hfn] at hfar
          have hfc : fc = Color.red := by
            have := isRB_colorOf hfar
            simp only [RNode.colorOf] at this
            exact this
          subst hfc
          obtain ⟨_, hf1, hf2⟩ := isRB_red_inv hfar
          rw [if_neg (by simp [nullOrBlackB])]
          refine Or.inl ⟨_, pc, rfl, ?_, fun hx => hx⟩
          have hin1 : IsRB (mkNodeS Side.r pi Color.black pv dsub near) Color.black (h + 1) :=
            isRB_mkNodeS_black hd hnear
          have hin2 : IsRB (setRootColor Color.black
              (RNode.node fi Color.red fv f1 f2)) Color.black (h + 1) := by
            show IsRB (RNode.node fi Color.black fv f1 f2) Color.black (h + 1)
            exact IsRB.black hf1 hf2
          cases pc with
          | red =>
            show IsRB (mkNodeS Side.r mi Color.red mv _ _) Color.red (h + 1)
            exact isRB_mkNodeS_red hin1 hin2
          | black =>
            show IsRB (mkNodeS Side.r mi Color.black mv _ _) Color.black (h + 2)
            exact isRB_mkNodeS_black hin1 hin2

/-- One full level of `fixupDelete_` preserves the deletion invariant:
it repairs the subtree or propagates the deficit with a black parent. -/
theorem fixupStep_rb (d : Side) (pi : Nat) (pc : Color) (pv : α)
    {dsub n : RNode α} {h : Nat} {cn : Color}
    (hd : IsRB dsub Color.black h) (hn : IsRB n cn (h + 1))
    (hpc : pc = Color.red → cn = Color.black) :
    (∃ S cS, fixupStep (mkNodeS d pi pc pv dsub n) d = FixRes.done S ∧
        IsRB S cS (delH pc h) ∧ (cS = Color.red → pc = Color.red)) ∨
    (∃ S, fixupStep (mkNodeS d pi pc pv dsub n) d = FixRes.up S ∧
        IsRB S Color.black (h + 1) ∧ pc = Color.black) := by
  rcases hnn : n with _ | ⟨ni, nc, nv, na, nb⟩
  · rw [hnn] at hn
    exact absurd rfl (isRB_ne_nil hn)
  rw [hnn] at hn
  have hnc : nc = cn := by
    have := isRB_colorOf hn
    simp only [RNode.colorOf] at this
    exact this
  subst hnc
  cases hcn : nc with
  | black =>
    rw [hcn] at hn
    obtain ⟨_, h0, c1, c2, he, hna, hnb⟩ := isRB_black_inv hn
    have hh0 : h0 = h := by omega
    subst hh0
    have hstepEq : fixupStep (mkNodeS d pi pc pv dsub
        (RNode.node ni Color.black nv na nb)) d =
        fixupInner (mkNodeS d pi pc pv dsub (RNode.node ni Color.black nv na nb)) d := by
      cases d <;> simp [fixupStep, Side.other, RNode.childS, mkNodeS]
    rw [hstepEq]
    cases d
    · exact fixupInner_rb Side.l pi pc pv ni nv hd hna hnb
    · exact fixupInner_rb Side.r pi pc pv ni nv hd hnb hna
  | red =>
    rw [hcn] at hn
    obtain ⟨_, hna, hnb⟩ := isRB_red_inv hn
    have hpcb : pc = Color.black := by
      rcases hpcc : pc with _ | _
      · exact absurd (hpc hpcc) (by simp [hcn])
      · rfl
    subst hpcb
    cases d
    · -- d = l : neighbor is the right child; nd = na, nod = nb
      rcases hnd : na with _ | ⟨mi2, mc2, mv2, k1, k2⟩
      · rw [hnd] at hna
        exact absurd rfl (isRB_ne_nil hna)
      rw [hnd] at hna
      have hmc : mc2 = Color.black := by
        have := isRB_colorOf hna
        simp only [RNode.colorOf] at this
        exact this
      subst hmc
      obtain ⟨_, h0, d1, d2, he, hk1, hk2⟩ := isRB_black_inv hna
      have hh0 : h0 = h := by omega
      subst hh0
      have hinner := fixupInner_rb Side.l pi Color.red pv mi2 mv2 hd hk1 hk2
      rcases hinner with ⟨S, cS, hEq, hS, _⟩ | ⟨S, _, _, hcon⟩
      swap
      · exact absurd hcon (by simp)
      refine Or.inl ⟨mkNodeS Side.l ni Color.black nv S nb, Color.black, ?_, ?_,
        by intro hcon; exact absurd hcon (by simp)⟩
      · simp only [fixupStep, Side.other, RNode.childS, mkNodeS]
        simp only [mkNodeS] at hEq
        rw [hEq]
      · simp only [mkNodeS]
        exact IsRB.black hS hnb
    · -- d = r : neighbor is the left child; nd = nb, nod = na
      rcases hnd : nb with _ | ⟨mi2, mc2, mv2, k1, k2⟩
      · rw [hnd] at hnb
        exact absurd rfl (isRB_ne_nil hnb)
      rw [hnd] at hnb
      have hmc : mc2 = Color.black := by
        have := isRB_colorOf hnb
        simp only [RNode.colorOf] at this
        exact this
      subst hmc
      obtain ⟨_, h0, d1, d2, he, hk1, hk2⟩ := isRB_black_inv hnb
      have hh0 : h0 = h := by omega
      subst hh0
      have hinner := fixupInner_rb Side.r pi Color.red pv mi2 mv2 hd hk2 hk1
      rcases hinner with ⟨S, cS, hEq, hS, _⟩ | ⟨S, _, _, hcon⟩
      swap
      · exact absurd hcon (by simp)
      refine Or.inl ⟨mkNodeS Side.r ni Color.black nv S na, Color.black, ?_, ?_,
        by intro hcon; exact absurd hcon (by simp)⟩
      · simp only [fixupStep, Side.other, RNode.childS, mkNodeS]
        simp only [mkNodeS] at hEq
        rw [hEq]
      · simp only [mkNodeS]
        exact IsRB.black hna hS

theorem setRootColor_black_of_black {t : RNode α} {hh : Nat}
    (ht : IsRB t Color.black hh) : IsRB (setRootColor Color.black t) Color.black hh := by
  cases ht with
  | nil => exact IsRB.nil
  | black hl hr => exact IsRB.black hl hr

theorem fixupDelete_unfold (ctx : Ctx α) (P : RNode α) (d : Side) :
    fixupDelete ctx P d =
      match fixupStep P d with
      | FixRes.done s => plug ctx s
      | FixRes.up s =>
        match ctx with
        | [] => setRootColor Color.black s
        | f :: rest => fixupDelete rest (mkF f s) f.side := by
  rw [fixupDelete.eq_def]

/-- `fixupDelete_` absorbs a one-black deficit: starting from a parent
with a deficient child in a valid context, the result is a valid
red-black tree with a black root. -/
theorem fixupDelete_rb :
    ∀ (ctx : Ctx α) (d : Side) (pi : Nat) (pc : Color) (pv : α)
      (dsub n : RNode α) (h : Nat) (cn cf : Color),
      IsRB dsub Color.black h → IsRB n cn (h + 1) → (pc = Color.red → cn = Color.black) →
      CtxRB ctx (delH pc h) cf → (cf = Color.red → pc = Color.black) →
      (ctx = [] → pc = Color.black) →
      ∃ H', IsRB (fixupDelete ctx (mkNodeS d pi pc pv dsub n) d) Color.black H' := by
  intro ctx
  induction ctx with
  | nil =>
    intro d pi pc pv dsub n h cn cf hd hn hpc hctx hcf hroot
    have hpcb : pc = Color.black := hroot rfl
    subst hpcb
    rcases fixupStep_rb d pi Color.black pv hd hn hpc with
      ⟨S, cS, hEq, hS, hcS⟩ | ⟨S, hEq, hS, _⟩
    · have hcSb : cS = Color.black := by
        rcases hc : cS with _ | _
        · exact absurd (hcS hc) (by simp)
        · rfl
      subst hcSb
      refine ⟨delH Color.black h, ?_⟩
      rw [fixupDelete_unfold, hEq]
      exact hS
    · refine ⟨h + 1, ?_⟩
      rw [fixupDelete_unfold, hEq]
      exact setRootColor_black_of_black hS
  | cons f rest ih =>
    intro d pi pc pv dsub n h cn cf hd hn hpc hctx hcf hroot
    rcases fixupStep_rb d pi pc pv hd hn hpc with
      ⟨S, cS, hEq, hS, hcS⟩ | ⟨S, hEq, hS, hpcb⟩
    · have hcomp : cf = Color.red → cS = Color.black := by
        intro hcfr
        have hpcb := hcf hcfr
        rcases hc : cS with _ | _
        · rw [hcS hc] at hpcb
          exact absurd hpcb (by simp)
        · rfl
      obtain ⟨c', h', hp, hne⟩ := ctxRB_plug hctx hS hcomp
      refine ⟨h', ?_⟩
      rw [fixupDelete_unfold, hEq]
      have : c' = Color.black := hne (by simp)
      rw [← this]
      exact hp
    · subst hpcb
      rw [show delH Color.black h = h + 2 from rfl] at hctx
      rcases ctxRB_cons_inv hctx with ⟨hfb, cs, c2, hsib, hrest⟩ | ⟨hfr, hne, hsib, hrest⟩
      · -- black frame above
        have hres := ih f.side f.id f.color f.val S f.sib (h + 1) cs c2
          hS hsib (by rw [hfb]; intro hcon; exact absurd hcon (by simp))
          (by rw [hfb]; exact hrest)
          (by rw [hfb]; intro _; rfl)
          (by intro _; exact hfb)
        obtain ⟨H', hH'⟩ := hres
        refine ⟨H', ?_⟩
        rw [fixupDelete_unfold, hEq]
        exact hH'
      · -- red frame above
        have hcnb : f.color = Color.red → Color.black = Color.black := fun _ => rfl
        have hsibc : IsRB f.sib Color.black (h + 2) := hsib
        have hres := ih f.side f.id f.color f.val S f.sib (h + 1) Color.black Color.black
          hS hsibc (fun _ => rfl)
          (by rw [hfr]; exact hrest)
          (by intro hcon; exact absurd hcon (by simp))
          (fun hcon => absurd hcon hne)
        obtain ⟨H', hH'⟩ := hres
        refine ⟨H', ?_⟩
        rw [fixupDelete_unfold, hEq]
        exact hH'

/-- The splice step of `delete_` preserves validity.  `y` (color `yc`)
occupied a hole of black-height `hy`; its only possible child is
nothing, or a red leaf under a black `y`. -/
theorem spliceFix_rb (yctx : Ctx α) (childY : RNode α) (yc : Color) (hy : Nat)
    (cf : Color) (hctx : CtxRB yctx hy cf)
    (hcomp : cf = Color.red → yc = Color.black)
    (hcase : (yc = Color.red ∧ hy = 0 ∧ childY = RNode.nil) ∨
      (yc = Color.black ∧ hy = 1 ∧
        (childY = RNode.nil ∨ IsRB childY Color.red 0))) :
    ∃ H', IsRB (spliceFix yctx childY (decide (yc = Color.black))) Color.black H' := by
  rcases hcase with ⟨hyc, hhy, hnil⟩ | ⟨hyc, hhy, hch⟩
  · -- red y, no children
    subst hyc; subst hhy; subst hnil
    rcases yctx with _ | ⟨f, rest⟩
    · exact ⟨0, by simp [spliceFix]; exact IsRB.nil⟩
    · have hdec : decide (Color.red = Color.black) = false := by decide
      obtain ⟨c', h', hp, hne⟩ := ctxRB_plug hctx IsRB.nil
        (by intro _; rfl)
      refine ⟨h', ?_⟩
      simp only [spliceFix, hdec, Bool.false_eq_true, if_false]
      have hcb : c' = Color.black := hne (by simp)
      rw [← hcb]
      exact hp
  · subst hyc; subst hhy
    have hdec : decide (Color.black = Color.black) = true := by decide
    rcases hch with hnil | hred
    · subst hnil
      rcases yctx with _ | ⟨f, rest⟩
      · exact ⟨0, IsRB.nil⟩
      · have hsp : spliceFix (f :: rest) RNode.nil (decide (Color.black = Color.black)) =
            fixupDelete rest (mkF f RNode.nil) f.side := rfl
        rw [hsp]
        rcases ctxRB_cons_inv hctx with ⟨hfb, cs, c2, hsib, hrest⟩ | ⟨hfr, hne, hsib, hrest⟩
        · -- black frame
          have := fixupDelete_rb rest f.side f.id f.color f.val RNode.nil f.sib 0
            cs c2 IsRB.nil hsib
            (by rw [hfb]; intro hcon; exact absurd hcon (by simp))
            (by rw [hfb]; show CtxRB rest (delH Color.black 0) c2; exact hrest)
            (by rw [hfb]; intro _; rfl)
            (by intro _; exact hfb)
          obtain ⟨H', hH'⟩ := this
          exact ⟨H', hH'⟩
        · -- red frame
          have := fixupDelete_rb rest f.side f.id f.color f.val RNode.nil f.sib 0
            Color.black Color.black IsRB.nil hsib (fun _ => rfl)
            (by rw [hfr]; show CtxRB rest (delH Color.red 0) Color.black; exact hrest)
            (by intro hcon; exact absurd hcon (by simp))
            (fun hcon => absurd hcon hne)
          obtain ⟨H', hH'⟩ := this
          exact ⟨H', hH'⟩
    · -- red child: recolor it black
      have hchnil : childY.isNil = false := by
        rcases hcc : childY with _ | _
        · rw [hcc] at hred
          exact absurd (isRB_nil_inv hred).1 (by simp)
        · rfl
      have hblk : IsRB (setRootColor Color.black childY) Color.black 1 := by
        cases hred with
        | red hl hr => exact IsRB.black hl hr
      rcases yctx with _ | ⟨f, rest⟩
      · refine ⟨1, ?_⟩
        have hsp : spliceFix [] childY (decide (Color.black = Color.black)) =
            setRootColor Color.black childY := by
          simp [spliceFix, hchnil]
        rw [hsp]
        exact hblk
      · have hsp : spliceFix (f :: rest) childY (decide (Color.black = Color.black)) =
            plug rest (mkF f (setRootColor Color.black childY)) := by
          simp [spliceFix, hchnil]
        rw [hsp]
        obtain ⟨c', h', hp, hne⟩ := ctxRB_plug hctx hblk (fun _ => rfl)
        refine ⟨h', ?_⟩
        have hcb : c' = Color.black := hne (by simp)
        subst hcb
        exact hp

/-- Walking to the minimum keeps the context valid. -/
theorem minZipC_ctxRB (r : RNode α) :
    ∀ (ctx1 : Ctx α) (h : Nat) (cr cf : Color),
      IsRB r cr h → CtxRB ctx1 h cf → (cf = Color.red → cr = Color.black) →
      ctx1 ≠ [] →
      ∃ hy cfy cy, CtxRB (minZipC r ctx1) hy cfy ∧ IsRB r.minN cy hy ∧
        (cfy = Color.red → cy = Color.black) ∧ minZipC r ctx1 ≠ [] := by
  induction r using RNode.minN.induct with
  | case1 =>
    intro ctx1 h cr cf hr hctx hcomp hne
    exact ⟨h, cf, cr, by simpa [minZipC] using hctx, by simpa [RNode.minN] using hr,
      hcomp, by simpa [minZipC] using hne⟩
  | case2 i c v rr =>
    intro ctx1 h cr cf hr hctx hcomp hne
    refine ⟨h, cf, cr, by simpa [minZipC] using hctx, ?_, hcomp,
      by simpa [minZipC] using hne⟩
    simpa [RNode.minN] using hr
  | case3 i c v rr j d w a b ih =>
    intro ctx1 h cr cf hr hctx hcomp hne
    have hcol : cr = c := by
      have := isRB_colorOf hr
      simp only [RNode.colorOf] at this
      exact this.symm
    subst hcol
    cases hcc : cr with
    | red =>
      rw [hcc] at hr
      obtain ⟨_, hl, hrr⟩ := isRB_red_inv hr
      have hcfb : cf = Color.black := by
        rcases hc : cf with _ | _
        · exact absurd (hcomp hc) (by simp [hcc])
        · rfl
      subst hcfb
      rcases ctx1 with _ | ⟨g, rest⟩
      · exact absurd rfl hne
      have hctx' : CtxRB (⟨Side.l, i, Color.red, v, rr⟩ :: g :: rest) h Color.red :=
        CtxRB.redF hrr hctx
      have := ih (⟨Side.l, i, Color.red, v, rr⟩ :: g :: rest) h Color.black Color.red
        hl hctx' (fun _ => rfl) (by simp)
      simpa [minZipC, RNode.minN, hcc] using this
    | black =>
      rw [hcc] at hr
      obtain ⟨_, h0, cl, cr2, he, hl, hrr⟩ := isRB_black_inv hr
      subst he
      have hctx' : CtxRB (⟨Side.l, i, Color.black, v, rr⟩ :: ctx1) h0 Color.black :=
        CtxRB.blackF hrr hctx
      have := ih (⟨Side.l, i, Color.black, v, rr⟩ :: ctx1) h0 cl Color.black
        hl hctx' (by intro hcon; exact absurd hcon (by simp)) (by simp)
      simpa [minZipC, RNode.minN, hcc] using this

/-- The shape analysis of the spliced node `y`: with at most one child,
either `y` is red with no children, or black of height one with no
child or a single red child. -/
theorem splice_case {yc : Color} {hy : Nat} {yi : Nat} {yv : α} {cl cr : RNode α}
    (hrb : IsRB (RNode.node yi yc yv cl cr) yc hy)
    (hone : cl = RNode.nil ∨ cr = RNode.nil) :
    (yc = Color.red ∧ hy = 0 ∧ (if !cl.isNil then cl else cr) = RNode.nil) ∨
    (yc = Color.black ∧ hy = 1 ∧
      ((if !cl.isNil then cl else cr) = RNode.nil ∨
        IsRB (if !cl.isNil then cl else cr) Color.red 0)) := by
  cases yc with
  | red =>
    obtain ⟨_, hl, hr⟩ := isRB_red_inv hrb
    have hy0 : hy = 0 := by
      rcases hone with hone | hone
      · rw [hone] at hl; exact (isRB_nil_inv hl).2
      · rw [hone] at hr; exact (isRB_nil_inv hr).2
    subst hy0
    have hcl : cl = RNode.nil := isRB_black_zero hl
    have hcr : cr = RNode.nil := isRB_black_zero hr
    subst hcl; subst hcr
    exact Or.inl ⟨rfl, rfl, by simp [RNode.isNil]⟩
  | black =>
    obtain ⟨_, h0, c1, c2, he, hl, hr⟩ := isRB_black_inv hrb
    have h00 : h0 = 0 := by
      rcases hone with hone | hone
      · rw [hone] at hl; exact (isRB_nil_inv hl).2.symm ▸ rfl
      · rw [hone] at hr; exact (isRB_nil_inv hr).2.symm ▸ rfl
    subst h00
    subst he
    refine Or.inr ⟨rfl, rfl, ?_⟩
    rcases hcl : cl with _ | ⟨li, lc, lv, l1, l2⟩
    · simp only [RNode.isNil, Bool.not_true, if_false]
      rw [hcl] at hl
      cases hc2 : c2 with
      | black =>
        rw [hc2] at hr
        exact Or.inl (isRB_black_zero hr)
      | red =>
        rw [hc2] at hr
        exact Or.inr hr
    · simp only [RNode.isNil, Bool.not_false, if_true]
      rw [hcl] at hl
      cases hc1 : c1 with
      | black =>
        rw [hc1] at hl
        exact absurd (isRB_black_zero hl) (by intro hcon; exact RNode.noConfusion hcon)
      | red =>
        rw [hc1] at hl
        exact Or.inr hl

/-- `delete_` preserves the red-black invariants. -/
theorem deleteById_rb (t : RbTree α) (i : Nat) {H : Nat}
    (hrb : IsRB t.root Color.black H) :
    ∃ H', IsRB (RbTree.deleteById t i).root Color.black H' := by
  cases hzip : zipTo i t.root [] with
  | none =>
    refine ⟨H, ?_⟩
    simp only [RbTree.deleteById, hzip]
    exact hrb
  | some res =>
    obtain ⟨n, ctx⟩ := res
    obtain ⟨hplugeq, hid, hnn⟩ := zipTo_spec i t.root [] n ctx hzip
    rcases n with _ | ⟨j, c, v, l, r⟩
    · exact absurd rfl hnn
    have hpe : plug ctx (RNode.node j c v l r) = t.root := hplugeq
    obtain ⟨h_t, ct, cf, htrb, hctx, hcomp⟩ :=
      plug_rb_decomp ctx (RNode.node j c v l r) H (by rw [hpe]; exact hrb)
    have hcc : c = ct := by
      have := isRB_colorOf htrb
      simp only [RNode.colorOf] at this
      exact this
    subst hcc
    simp only [RbTree.deleteById, hzip]
    by_cases hlr : (l.isNil || r.isNil) = true
    · rw [if_pos hlr]
      have hone : l = RNode.nil ∨ r = RNode.nil := by
        rw [Bool.or_eq_true] at hlr
        rcases hlr with hx | hx
        · left; rcases l with _ | _
          · rfl
          · simp [RNode.isNil] at hx
        · right; rcases r with _ | _
          · rfl
          · simp [RNode.isNil] at hx
      exact spliceFix_rb ctx (if !l.isNil then l else r) c h_t cf hctx hcomp
        (splice_case htrb hone)
    · rw [if_neg hlr]
      have hlnn : l ≠ RNode.nil := by
        intro hcon; subst hcon; simp [RNode.isNil] at hlr
      have hrnn : r ≠ RNode.nil := by
        intro hcon; subst hcon; simp [RNode.isNil] at hlr
      obtain ⟨yi2, yc, yv2, yr, hy2⟩ := minN_shape r hrnn
      rw [hy2]
      cases c with
      | red =>
        obtain ⟨_, hl, hr⟩ := isRB_red_inv htrb
        have hcfb : cf = Color.black := by
          rcases hc : cf with _ | _
          · exact absurd (hcomp hc) (by simp)
          · rfl
        subst hcfb
        rcases hctxe : ctx with _ | ⟨g, rest⟩
        · exfalso
          rw [hctxe] at hpe
          simp only [plug] at hpe
          rw [← hpe] at hrb
          have := isRB_colorOf hrb
          simp only [RNode.colorOf] at this
          exact Color.noConfusion this
        subst hctxe
        have hF : CtxRB (⟨Side.r, yi2, Color.red, yv2, l⟩ :: g :: rest) h_t Color.red :=
          CtxRB.redF hl hctx
        obtain ⟨hy, cfy, cy, hcy, hmy, hcompy, _⟩ :=
          minZipC_ctxRB r (⟨Side.r, yi2, Color.red, yv2, l⟩ :: g :: rest) h_t
            Color.black Color.red hr hF (fun _ => rfl) (by simp)
        rw [hy2] at hmy
        have hcyc : yc = cy := by
          have := isRB_colorOf hmy
          simp only [RNode.colorOf] at this
          exact this
        subst hcyc
        have hcase := splice_case hmy (Or.inl rfl)
        simp only [RNode.isNil, Bool.not_true, Bool.false_eq_true, if_false] at hcase
        exact spliceFix_rb _ yr yc hy cfy hcy hcompy hcase
      | black =>
        obtain ⟨_, h0, c1, c2, he, hl, hr⟩ := isRB_black_inv htrb
        subst he
        have hF : CtxRB (⟨Side.r, yi2, Color.black, yv2, l⟩ :: ctx) h0 Color.black :=
          CtxRB.blackF hl hctx
        obtain ⟨hy, cfy, cy, hcy, hmy, hcompy, _⟩ :=
          minZipC_ctxRB r (⟨Side.r, yi2, Color.black, yv2, l⟩ :: ctx) h0
            c2 Color.black hr hF (by intro hcon; exact absurd hcon (by simp)) (by simp)
        rw [hy2] at hmy
        have hcyc : yc = cy := by
          have := isRB_colorOf hmy
          simp only [RNode.colorOf] at this
          exact this
        subst hcyc
        have hcase := splice_case hmy (Or.inl rfl)
        simp only [RNode.isNil, Bool.not_true, Bool.false_eq_true, if_false] at hcase
        exact spliceFix_rb _ yr yc hy cfy hcy hcompy hcase

end DeleteRB





section Addressing

variable {α : Type}

/-- `s` occurs (reflexively) as a subtree of `t`: the node `s` is
reachable from `t`'s root through child links. -/
inductive Subtree : RNode α → RNode α → Prop where
  | refl (t : RNode α) : Subtree t t
  | onLeft {s l r : RNode α} {i c v} : Subtree s l → Subtree s (RNode.node i c v l r)
  | onRight {s l r : RNode α} {i c v} : Subtree s r → Subtree s (RNode.node i c v l r)

theorem idsOf_node (i : Nat) (c : Color) (v : α) (l r : RNode α) :
    idsOf (RNode.node i c v l r) = idsOf l ++ i :: idsOf r := by
  simp [idsOf, RNode.inorder]

theorem subtree_ids {s t : RNode α} (h : Subtree s t) : ∀ i ∈ idsOf s, i ∈ idsOf t := by
  induction h with
  | refl => exact fun i hi => hi
  | onLeft h ih =>
    intro i hi
    rw [idsOf_node]
    exact List.mem_append.mpr (Or.inl (ih i hi))
  | onRight h ih =>
    intro i hi
    rw [idsOf_node]
    exact List.mem_append.mpr (Or.inr (List.mem_cons.mpr (Or.inr (ih i hi))))

theorem subtree_trans {a b c : RNode α} (h1 : Subtree a b) (h2 : Subtree b c) :
    Subtree a c := by
  induction h2 with
  | refl => exact h1
  | onLeft h ih => exact Subtree.onLeft ih
  | onRight h ih => exact Subtree.onRight ih

theorem subtree_mkF (f : Frame α) (t : RNode α) : Subtree t (mkF f t) := by
  cases hs : f.side
  · show Subtree t (mkNodeS f.side f.id f.color f.val t f.sib)
    rw [hs]
    exact Subtree.onLeft (Subtree.refl t)
  · show Subtree t (mkNodeS f.side f.id f.color f.val t f.sib)
    rw [hs]
    exact Subtree.onRight (Subtree.refl t)

theorem subtree_plug (ctx : Ctx α) : ∀ t : RNode α, Subtree t (plug ctx t) := by
  induction ctx with
  | nil => intro t; exact Subtree.refl t
  | cons f rest ih =>
    intro t
    exact subtree_trans (subtree_mkF f t) (ih (mkF f t))

theorem minN_subtree (t : RNode α) : t ≠ RNode.nil → Subtree t.minN t := by
  induction t using RNode.minN.induct with
  | case1 => intro h; exact absurd rfl h
  | case2 i c v rr => intro _; exact Subtree.refl _
  | case3 i c v rr j d w a b ih =>
    intro _
    have h := ih (by intro hc; exact RNode.noConfusion hc)
    show Subtree (RNode.minN (RNode.node j d w a b)) _
    exact Subtree.onLeft h

theorem getN_none (i : Nat) (t : RNode α) (h : i ∉ idsOf t) : getN t i = none := by
  induction t with
  | nil => rfl
  | node j c v l r ihl ihr =>
    rw [idsOf_node] at h
    simp only [List.mem_append, List.mem_cons, not_or] at h
    obtain ⟨hl, hj, hr⟩ := h
    simp only [getN, ihl hl, ihr hr]
    exact if_neg (fun hc => hj hc.symm)

theorem nodup_node_inv {i : Nat} {c : Color} {v : α} {l r : RNode α}
    (h : (idsOf (RNode.node i c v l r)).Nodup) :
    (idsOf l).Nodup ∧ (idsOf r).Nodup ∧ i ∉ idsOf l ∧ i ∉ idsOf r ∧
      ∀ k ∈ idsOf l, k ∉ idsOf r := by
  rw [idsOf_node, List.nodup_append] at h
  obtain ⟨h1, h2, h3⟩ := h
  rw [List.nodup_cons] at h2
  refine ⟨h1, h2.2, ?_, h2.1, ?_⟩
  · intro hmem
    exact h3 hmem (List.mem_cons_self _ _)
  · intro k hk hkr
    exact h3 hk (List.mem_cons_of_mem _ hkr)

/-- With distinct addresses, `getN` retrieves exactly the subtree hung
at a given address (the model of following a node pointer). -/
theorem getN_spec {t s : RNode α} (hnd : (idsOf t).Nodup) (hsub : Subtree s t)
    (hne : s ≠ RNode.nil) : getN t s.idOf = some s := by
  induction t with
  | nil => cases hsub; exact absurd rfl hne
  | node j c v l r ihl ihr =>
    obtain ⟨hndl, hndr, hjl, hjr, hdisj⟩ := nodup_node_inv hnd
    cases hsub with
    | refl => simp [getN, RNode.idOf]
    | onLeft hs =>
      have hmem : s.idOf ∈ idsOf l := by
        rcases s with _ | ⟨si, sc, sv, sl, sr⟩
        · exact absurd rfl hne
        · exact subtree_ids hs _ (by
            rw [idsOf_node]
            exact List.mem_append.mpr (Or.inr (List.mem_cons_self _ _)))
      have hji : ¬ j = s.idOf := fun hc => hjl (by rw [hc]; exact hmem)
      simp only [getN, if_neg hji, ihl hndl hs]
    | onRight hs =>
      have hmem : s.idOf ∈ idsOf r := by
        rcases s with _ | ⟨si, sc, sv, sl, sr⟩
        · exact absurd rfl hne
        · exact subtree_ids hs _ (by
            rw [idsOf_node]
            exact List.mem_append.mpr (Or.inr (List.mem_cons_self _ _)))
      have hji : ¬ j = s.idOf := fun hc => hjr (by rw [hc]; exact hmem)
      have hnl : getN l s.idOf = none :=
        getN_none _ _ (fun hc => hdisj _ hc hmem)
      simp only [getN, if_neg hji, hnl, ihr hndr hs]

theorem mem_inorder_subtree {t : RNode α} {j : Nat} {x : α}
    (h : (j, x) ∈ RNode.inorder t) :
    ∃ c l r, Subtree (RNode.node j c x l r) t := by
  induction t with
  | nil => simp [RNode.inorder] at h
  | node i c v l r ihl ihr =>
    simp only [RNode.inorder, List.mem_append, List.mem_cons] at h
    rcases h with h | h | h
    · obtain ⟨c2, l2, r2, hs⟩ := ihl h
      exact ⟨c2, l2, r2, Subtree.onLeft hs⟩
    · rw [Prod.mk.injEq] at h
      obtain ⟨h1, h2⟩ := h
      subst h1
      subst h2
      exact ⟨c, l, r, Subtree.refl _⟩
    · obtain ⟨c2, l2, r2, hs⟩ := ihr h
      exact ⟨c2, l2, r2, Subtree.onRight hs⟩

/-- Splitting an in-order list at an entry whose address occurs once is
unambiguous. -/
theorem split_unique {L1 R1 L2 R2 : List (Nat × α)} {j : Nat} {v w : α} :
    L1 ++ (j, v) :: R1 = L2 ++ (j, w) :: R2 →
    (List.map Prod.fst (L1 ++ (j, v) :: R1)).Nodup →
    L1 = L2 ∧ v = w ∧ R1 = R2 := by
  induction L1 generalizing L2 with
  | nil =>
    intro h hnd
    cases L2 with
    | nil =>
      simp only [List.nil_append, List.cons.injEq, Prod.mk.injEq] at h
      exact ⟨rfl, h.1.2, h.2⟩
    | cons b L2t =>
      exfalso
      simp only [List.nil_append, List.cons_append, List.cons.injEq] at h
      obtain ⟨hb, ht⟩ := h
      have hnd2 : j ∉ List.map Prod.fst R1 := by
        simp only [List.nil_append, List.map_cons] at hnd
        exact (List.nodup_cons.mp hnd).1
      apply hnd2
      rw [ht]
      simp
  | cons a L1t ih =>
    intro h hnd
    cases L2 with
    | nil =>
      exfalso
      simp only [List.cons_append, List.nil_append, List.cons.injEq] at h
      obtain ⟨ha, ht⟩ := h
      have hnd2 : a.1 ∉ List.map Prod.fst (L1t ++ (j, v) :: R1) := by
        simp only [List.cons_append, List.map_cons] at hnd
        exact (List.nodup_cons.mp hnd).1
      apply hnd2
      rw [ha]
      simp
    | cons b L2t =>
      simp only [List.cons_append, List.cons.injEq] at h
      obtain ⟨hab, ht⟩ := h
      subst hab
      have hnd2 : (List.map Prod.fst (L1t ++ (j, v) :: R1)).Nodup := by
        simp only [List.cons_append, List.map_cons] at hnd
        exact (List.nodup_cons.mp hnd).2
      obtain ⟨h1, h2, h3⟩ := ih ht hnd2
      exact ⟨by rw [h1], h2, h3⟩

end Addressing

section SmallHelpers

variable {α : Type}

theorem bool_not_true {b : Bool} (h : ¬ b = true) : b = false := by
  cases b with
  | false => rfl
  | true => exact absurd rfl h

theorem mkF_idOf (f : Frame α) (t : RNode α) : (mkF f t).idOf = f.id := by
  cases hs : f.side <;> simp [mkF, hs, mkNodeS, RNode.idOf]

theorem mkF_ne_nil (f : Frame α) (t : RNode α) : mkF f t ≠ RNode.nil := by
  cases hs : f.side <;> simp [mkF, hs, mkNodeS]

theorem mkF_left_l (f : Frame α) (t : RNode α) (h : f.side = Side.l) :
    (mkF f t).left = t := by
  simp [mkF, h, mkNodeS, RNode.left]

theorem ctxLo_cons_nil {f : Frame α} {rest : Ctx α} (h : ctxLo (f :: rest) = []) :
    f.side = Side.l ∧
      ctxHi (f :: rest) = (f.id, f.val) :: (RNode.inorder f.sib ++ ctxHi rest) := by
  cases hs : f.side
  · exact ⟨rfl, by simp [ctxHi, hs]⟩
  · exfalso
    simp [ctxLo, hs] at h

/-- `Node::next` of a real node yields the head of the remainder of the
in-order sequence. -/
theorem nextZ_spec (j : Nat) (c : Color) (v : α) (l r : RNode α) (ctx : Ctx α) :
    nextZ (RNode.node j c v l r) ctx = headLocL (RNode.inorder r ++ ctxHi ctx) := by
  cases r with
  | nil => simp [nextZ, RNode.inorder, climbNext_spec]
  | node ri rc rv ra rb =>
    obtain ⟨w, tl, htl⟩ :=
      minN_head (RNode.node ri rc rv ra rb) (by intro hc; exact RNode.noConfusion hc)
    simp only [nextZ]
    rw [htl]
    rfl

/-- The comparator of the concrete witnesses: `<` on `Nat`. -/
def natLt (a b : Nat) : Bool := decide (a < b)

theorem swo_natLt : SWO natLt := by
  constructor
  · intro a b h
    simp only [natLt, decide_eq_true_eq] at h
    simp only [natLt, decide_eq_false_iff_not]
    omega
  · intro a b c h1 h2
    simp only [natLt, decide_eq_false_iff_not] at h1 h2 ⊢
    omega

theorem swo_pairCmp {κ V : Type} {cmp : κ → κ → Bool} (h : SWO cmp) :
    SWO (pairCmp (V := V) cmp) := by
  constructor
  · intro a b hab
    exact h.asym a.1 b.1 hab
  · intro a b c h1 h2
    exact h.negtrans a.1 b.1 c.1 h1 h2

/-- `RbTree::empty`: `size_ == 0`. -/
def RbTree.emptyB (t : RbTree α) : Bool := t.size == 0

/-- Forget the addresses of a tree: what remains is exactly the
topology, the colors and the values, i.e. what `Node::clone`
preserves. -/
def eraseIds : RNode α → RNode α
  | .nil => .nil
  | .node _ c v l r => .node 0 c v (eraseIds l) (eraseIds r)

theorem valsOf_eraseIds (t : RNode α) : valsOf (eraseIds t) = valsOf t := by
  induction t with
  | nil => rfl
  | node i c v l r ihl ihr =>
    show valsOf (RNode.node 0 c v (eraseIds l) (eraseIds r)) = _
    rw [valsOf_node, valsOf_node, ihl, ihr]

theorem bhOf_eraseIds (t : RNode α) : bhOf (eraseIds t) = bhOf t := by
  induction t with
  | nil => rfl
  | node i c v l r ihl ihr =>
    show bhOf (RNode.node 0 c v (eraseIds l) (eraseIds r)) = _
    simp only [bhOf, ihl, ihr]

theorem nullOrBlackB_eraseIds (t : RNode α) : nullOrBlackB (eraseIds t) = nullOrBlackB t := by
  cases t <;> rfl

theorem noRedRedB_eraseIds (t : RNode α) : noRedRedB (eraseIds t) = noRedRedB t := by
  induction t with
  | nil => rfl
  | node i c v l r ihl ihr =>
    show noRedRedB (RNode.node 0 c v (eraseIds l) (eraseIds r)) = _
    simp only [noRedRedB, ihl, ihr, nullOrBlackB_eraseIds]

theorem rootBlackB_eraseIds (t : RNode α) : rootBlackB (eraseIds t) = rootBlackB t := by
  cases t <;> rfl

theorem cloneN_shape (t : RNode α) : ∀ s : Nat, eraseIds (cloneN t s).1 = eraseIds t := by
  induction t with
  | nil => intro s; rfl
  | node i c v l r ihl ihr =>
    intro s
    simp only [cloneN, eraseIds, ihl, ihr]

theorem cloneN_ids (t : RNode α) : ∀ s : Nat,
    s ≤ (cloneN t s).2 ∧ (∀ k ∈ idsOf (cloneN t s).1, s ≤ k ∧ k < (cloneN t s).2) ∧
      (idsOf (cloneN t s).1).Nodup := by
  induction t with
  | nil =>
    intro s
    refine ⟨Nat.le_refl s, ?_, ?_⟩ <;> simp [cloneN, idsOf, RNode.inorder]
  | node i c v l r ihl ihr =>
    intro s
    obtain ⟨hl1, hl2, hl3⟩ := ihl (s + 1)
    obtain ⟨hr1, hr2, hr3⟩ := ihr (cloneN l (s + 1)).2
    simp only [cloneN]
    refine ⟨by omega, ?_, ?_⟩
    · intro k hk
      rw [idsOf_node] at hk
      rcases List.mem_append.mp hk with hk | hk
      · have := hl2 k hk
        omega
      · rcases List.mem_cons.mp hk with hk | hk
        · subst hk
          omega
        · have := hr2 k hk
          omega
    · rw [idsOf_node, List.nodup_append, List.nodup_cons]
      refine ⟨hl3, ⟨?_, hr3⟩, ?_⟩
      · intro hmem
        have := hr2 s hmem
        omega
      · intro a hal hacons
        have h1 := hl2 a hal
        rcases List.mem_cons.mp hacons with h | h
        · omega
        · have := hr2 a h
          omega

theorem cloneN_vals (t : RNode α) (s : Nat) : valsOf (cloneN t s).1 = valsOf t := by
  rw [← valsOf_eraseIds (cloneN t s).1, cloneN_shape, valsOf_eraseIds]

theorem cloneN_bhOf (t : RNode α) (s : Nat) : bhOf (cloneN t s).1 = bhOf t := by
  rw [← bhOf_eraseIds (cloneN t s).1, cloneN_shape, bhOf_eraseIds]

theorem cloneN_noRedRedB (t : RNode α) (s : Nat) :
    noRedRedB (cloneN t s).1 = noRedRedB t := by
  rw [← noRedRedB_eraseIds (cloneN t s).1, cloneN_shape, noRedRedB_eraseIds]

theorem cloneN_rootBlackB (t : RNode α) (s : Nat) :
    rootBlackB (cloneN t s).1 = rootBlackB t := by
  rw [← rootBlackB_eraseIds (cloneN t s).1, cloneN_shape, rootBlackB_eraseIds]

theorem inorder_length_vals (t : RNode α) :
    (RNode.inorder t).length = (valsOf t).length := by
  simp [valsOf]

theorem fresh_not_mem {t : RbTree α} (hidb : idsBelow t.root t.nextId)
    {L R : List (Nat × α)} (hs : RNode.inorder t.root = L ++ R) :
    t.nextId ∉ List.map Prod.fst (L ++ R) := by
  intro hmem
  have hm2 : t.nextId ∈ idsOf t.root := by
    show t.nextId ∈ List.map Prod.fst (RNode.inorder t.root)
    rw [hs]
    exact hmem
  exact absurd (hidb _ hm2) (by omega)

theorem nodup_mid {L R : List (Nat × α)} {nid : Nat} {v : α}
    (h : (List.map Prod.fst (L ++ R)).Nodup)
    (hf : nid ∉ List.map Prod.fst (L ++ R)) :
    (List.map Prod.fst (L ++ (nid, v) :: R)).Nodup := by
  simp only [List.map_append, List.map_cons] at h hf ⊢
  rw [List.nodup_middle]
  rw [List.nodup_cons]
  exact ⟨hf, h⟩

/-- `operator=` always recomputes `leftmost_` as the clone's minimum. -/
theorem assign_leftmost (t : RbTree α) (supply : Nat) :
    (RbTree.assign t supply).leftmost = headLoc (RbTree.assign t supply).root := by
  simp only [RbTree.assign]
  cases hc : (cloneN t.root supply).1 with
  | nil => simp [headLoc, RNode.inorder]
  | node j d w a b =>
    obtain ⟨w2, tl, htl⟩ :=
      minN_head (RNode.node j d w a b) (by intro hcon; exact RNode.noConfusion hcon)
    simp [headLoc, htl]

end SmallHelpers

section WFPreservation

variable {α : Type}

theorem wf_mk0 {cmp : α → α → Bool} : WF cmp (RbTree.mk0 : RbTree α) := by
  unfold WF
  refine ⟨?_, ?_, ?_, ?_, ?_, ?_, ?_, ?_⟩ <;>
    simp [RbTree.mk0, valsOf, idsOf, RNode.inorder, bhOf, noRedRedB, rootBlackB,
      headLoc, idsBelow]

theorem wf_clear {cmp : α → α → Bool} (t : RbTree α) : WF cmp (RbTree.clearT t) := by
  unfold WF
  refine ⟨?_, ?_, ?_, ?_, ?_, ?_, ?_, ?_⟩ <;>
    simp [RbTree.clearT, valsOf, idsOf, RNode.inorder, bhOf, noRedRedB, rootBlackB,
      headLoc, idsBelow]

theorem wf_assign {cmp : α → α → Bool} {t : RbTree α} (hwf : WF cmp t) (supply : Nat) :
    WF cmp (RbTree.assign t supply) := by
  unfold WF at hwf ⊢
  obtain ⟨hch, hnd, hbh, hnr, hrbk, hlm, hsz, hidb⟩ := hwf
  obtain ⟨hc1, hc2, hc3⟩ := cloneN_ids t.root supply
  refine ⟨?_, ?_, ?_, ?_, ?_, assign_leftmost t supply, ?_, ?_⟩
  · show List.Chain' _ (valsOf (cloneN t.root supply).1)
    rw [cloneN_vals]
    exact hch
  · exact hc3
  · show (bhOf (cloneN t.root supply).1).isSome = true
    rw [cloneN_bhOf]
    exact hbh
  · show noRedRedB (cloneN t.root supply).1 = true
    rw [cloneN_noRedRedB]
    exact hnr
  · show rootBlackB (cloneN t.root supply).1 = true
    rw [cloneN_rootBlackB]
    exact hrbk
  · show t.size = (RNode.inorder (cloneN t.root supply).1).length
    rw [inorder_length_vals, cloneN_vals, ← inorder_length_vals]
    exact hsz
  · intro k hk
    exact (hc2 k hk).2

/-- The full effect of a non-duplicate `emplace_`: the new entry is
spliced into the in-order sequence at its ordered position with the
fresh address, the result is ordered and red-black, `leftmost_` is
correctly maintained by the libc++ trick, `size_` is untouched and the
allocation counter advances. -/
theorem emplaceT_spec_new {cmp : α → α → Bool} (hswo : SWO cmp) (t : RbTree α) (v : α)
    (hwf : WF cmp t)
    (hno : ∀ x ∈ valsOf t.root, ¬(cmp v x = false ∧ cmp x v = false)) :
    ∃ L R,
      RNode.inorder t.root = L ++ R ∧
      RNode.inorder (RbTree.emplaceT cmp t v).1.root = L ++ (t.nextId, v) :: R ∧
      (List.map Prod.snd (L ++ (t.nextId, v) :: R)).Pairwise
        (fun a b => cmp a b = true) ∧
      (RbTree.emplaceT cmp t v).1.leftmost = headLoc (RbTree.emplaceT cmp t v).1.root ∧
      (RbTree.emplaceT cmp t v).1.size = t.size ∧
      (RbTree.emplaceT cmp t v).1.nextId = t.nextId + 1 ∧
      (∃ H2, IsRB (RbTree.emplaceT cmp t v).1.root Color.black H2) ∧
      (RbTree.emplaceT cmp t v).2 = (t.nextId, false) := by
  unfold WF at hwf
  obtain ⟨hch, hnd, hbh, hnr, hrbk, hlm, hsz, hidb⟩ := hwf
  rcases hroot : t.root with _ | ⟨j0, c0, x0, l0, r0⟩
  · have hout : RbTree.emplaceT cmp t v =
        ({ root := RNode.node t.nextId Color.black v RNode.nil RNode.nil,
           leftmost := Loc.ptr t.nextId, size := t.size, nextId := t.nextId + 1 },
         (t.nextId, false)) := by
      simp only [RbTree.emplaceT]
      rw [hroot]
    refine ⟨[], [], rfl, ?_, ?_, ?_, ?_, ?_, ?_, ?_⟩
    · rw [hout]
      rfl
    · simp
    · rw [hout]
      rfl
    · rw [hout]
    · rw [hout]
    · exact ⟨1, by rw [hout]; exact IsRB.black IsRB.nil IsRB.nil⟩
    · rw [hout]
  · have hord : OrdT cmp t.root :=
      ordT_of_pairwise ((chain'_iff_pairwise hswo _).mp hch)
    rw [hroot] at hord
    obtain ⟨H, hrb0⟩ := (rb_checkers_iff t.root).mp ⟨hbh, hnr, hrbk⟩
    rw [hroot] at hrb0
    cases hemp : emplaceN cmp v t.nextId (RNode.node j0 c0 x0 l0 r0) [] with
    | inl d =>
      exfalso
      obtain ⟨x2, hmem, h1, h2⟩ := emplaceN_dup_mem v t.nextId _
        (by intro hcon; exact RNode.noConfusion hcon) [] d hemp
      have hx2 : x2 ∈ valsOf t.root := by
        rw [hroot]
        exact List.mem_map_of_mem Prod.snd hmem
      exact hno x2 hx2 ⟨h1, h2⟩
    | inr ctxNew =>
      have hplug := emplaceN_plug v t.nextId (RNode.node j0 c0 x0 l0 r0) [] ctxNew hemp
      simp only [plug] at hplug
      have hnoT : ∀ x ∈ valsOf (RNode.node j0 c0 x0 l0 r0),
          ¬(cmp v x = false ∧ cmp x v = false) := by
        intro x hx
        exact hno x (by rw [hroot]; exact hx)
      obtain ⟨L, R, hsplit1, hsplit2⟩ := bstIns_split v t.nextId _ hnoT
      have hsplit1T : RNode.inorder t.root = L ++ R := by
        rw [hroot]
        exact hsplit1
      have hio1 : RNode.inorder
          (plug ctxNew (RNode.node t.nextId Color.red v RNode.nil RNode.nil)) =
          L ++ (t.nextId, v) :: R := by
        rw [hplug]
        exact hsplit2
      have hout : RbTree.emplaceT cmp t v =
          ({ root := setRootColor Color.black
                (fixupInsert (RNode.node t.nextId Color.red v RNode.nil RNode.nil) ctxNew),
             leftmost := if !(leftChildAtLoc
                (plug ctxNew (RNode.node t.nextId Color.red v RNode.nil RNode.nil))
                t.leftmost).isNil then Loc.ptr t.nextId else t.leftmost,
             size := t.size, nextId := t.nextId + 1 },
           (t.nextId, false)) := by
        simp only [RbTree.emplaceT]
        rw [hroot]
        simp only [hemp]
      have hio2 : RNode.inorder (RbTree.emplaceT cmp t v).1.root =
          L ++ (t.nextId, v) :: R := by
        rw [hout]
        show RNode.inorder (setRootColor Color.black (fixupInsert _ ctxNew)) = _
        rw [setRootColor_inorder, fixupInsert_inorder]
        exact hio1
      have hndold : (List.map Prod.fst (L ++ R)).Nodup := by
        have hh := hnd
        show (List.map Prod.fst (L ++ R)).Nodup
        rw [← hsplit1T]
        exact hh
      have hfresh : t.nextId ∉ List.map Prod.fst (L ++ R) :=
        fresh_not_mem hidb hsplit1T
      have hnd1 : (idsOf
          (plug ctxNew (RNode.node t.nextId Color.red v RNode.nil RNode.nil))).Nodup := by
        show (List.map Prod.fst (RNode.inorder _)).Nodup
        rw [hio1]
        exact nodup_mid hndold hfresh
      have hpw2 : (List.map Prod.snd (L ++ (t.nextId, v) :: R)).Pairwise
          (fun a b => cmp a b = true) := by
        have hpw := pairwise_of_ordT hswo (bstIns_ordT v t.nextId hord)
        show (List.map Prod.snd (L ++ (t.nextId, v) :: R)).Pairwise _
        rw [← hsplit2]
        exact hpw
      refine ⟨L, R, hsplit1, hio2, hpw2, ?_, ?_, ?_, ?_, ?_⟩
      · -- the leftmost cache
        rw [headLoc_eq, hio2, hout]
        show (if !(leftChildAtLoc
            (plug ctxNew (RNode.node t.nextId Color.red v RNode.nil RNode.nil))
            t.leftmost).isNil then Loc.ptr t.nextId else t.leftmost) = _
        have hlm0 : t.leftmost = headLocL (L ++ R) := by
          rw [hlm, headLoc_eq, hsplit1T]
        cases L with
        | nil =>
          have hplugio : RNode.inorder
              (plug ctxNew (RNode.node t.nextId Color.red v RNode.nil RNode.nil)) =
              ctxLo ctxNew ++ (t.nextId, v) :: ctxHi ctxNew := by
            rw [plug_inorder]
            simp [RNode.inorder]
          have hmatch : ([] : List (Nat × α)) ++ (t.nextId, v) :: R =
              ctxLo ctxNew ++ (t.nextId, v) :: ctxHi ctxNew := by
            rw [← hplugio, hio1]
          obtain ⟨hLo, _, hHi⟩ := split_unique hmatch (by
            have hh := hnd1
            rw [show idsOf (plug ctxNew (RNode.node t.nextId Color.red v RNode.nil
              RNode.nil)) = List.map Prod.fst (RNode.inorder (plug ctxNew
              (RNode.node t.nextId Color.red v RNode.nil RNode.nil))) from rfl,
              hio1] at hh
            exact hh)
          cases hctxe : ctxNew with
          | nil =>
            exfalso
            rw [hctxe] at hHi
            have hRnil : R = [] := by
              rw [hHi]
              rfl
            rw [List.nil_append] at hsplit1
            rw [hRnil] at hsplit1
            exact absurd hsplit1 (by simp [RNode.inorder])
          | cons f rest =>
            obtain ⟨hfs, hHiC⟩ := ctxLo_cons_nil
              (show ctxLo (f :: rest) = [] by rw [← hctxe, ← hLo])
            have hRhead : R = (f.id, f.val) :: (RNode.inorder f.sib ++ ctxHi rest) := by
              rw [hHi, hctxe, hHiC]
            have hlmf : t.leftmost = Loc.ptr f.id := by
              rw [hlm0, List.nil_append, hRhead]
              rfl
            have hsub : Subtree (mkF f (RNode.node t.nextId Color.red v RNode.nil RNode.nil))
                (plug ctxNew (RNode.node t.nextId Color.red v RNode.nil RNode.nil)) := by
              rw [hctxe]
              show Subtree _ (plug rest (mkF f _))
              exact subtree_plug rest _
            have hget : getN
                (plug ctxNew (RNode.node t.nextId Color.red v RNode.nil RNode.nil)) f.id =
                some (mkF f (RNode.node t.nextId Color.red v RNode.nil RNode.nil)) := by
              have hg := getN_spec hnd1 hsub (mkF_ne_nil f _)
              rw [mkF_idOf] at hg
              exact hg
            have hlc : leftChildAtLoc
                (plug ctxNew (RNode.node t.nextId Color.red v RNode.nil RNode.nil))
                t.leftmost = RNode.node t.nextId Color.red v RNode.nil RNode.nil := by
              rw [hlmf]
              simp only [leftChildAtLoc, hget]
              exact mkF_left_l f _ hfs
            rw [← hctxe, hlc]
            rfl
        | cons p L2 =>
          obtain ⟨i0, w0⟩ := p
          have hlmf : t.leftmost = Loc.ptr i0 := by
            rw [hlm0]
            rfl
          have ht1ne : plug ctxNew (RNode.node t.nextId Color.red v RNode.nil RNode.nil) ≠
              RNode.nil := by
            intro hcon
            rw [hcon] at hio1
            exact absurd hio1.symm (by simp [RNode.inorder])
          obtain ⟨yi, yc, yv, yr, hyshape⟩ := minN_shape _ ht1ne
          obtain ⟨w2, tl2, hyhead⟩ := minN_head _ ht1ne
          have hidm : (RNode.minN
              (plug ctxNew (RNode.node t.nextId Color.red v RNode.nil RNode.nil))).idOf =
              i0 := by
            rw [hio1] at hyhead
            have hh : ((i0, w0) :: (L2 ++ (t.nextId, v) :: R) : List (Nat × α)) =
                ((RNode.minN (plug ctxNew (RNode.node t.nextId Color.red v RNode.nil
                  RNode.nil))).idOf, w2) :: tl2 := hyhead
            have := (List.cons.injEq _ _ _ _).mp hh
            rw [Prod.mk.injEq] at this
            exact this.1.1.symm
          have hsub := minN_subtree _ ht1ne
          have hget : getN
              (plug ctxNew (RNode.node t.nextId Color.red v RNode.nil RNode.nil)) i0 =
              some (RNode.minN
                (plug ctxNew (RNode.node t.nextId Color.red v RNode.nil RNode.nil))) := by
            have hg := getN_spec hnd1 hsub (by
              rw [hyshape]
              intro hcon
              exact RNode.noConfusion hcon)
            rw [hidm] at hg
            exact hg
          have hlc : leftChildAtLoc
              (plug ctxNew (RNode.node t.nextId Color.red v RNode.nil RNode.nil))
              t.leftmost = RNode.nil := by
            rw [hlmf]
            simp only [leftChildAtLoc, hget, hyshape]
            rfl
          rw [hlc]
          simp only [RNode.isNil, Bool.not_true, Bool.false_eq_true, if_false]
          rw [hlmf]
          rfl
      · rw [hout]
      · rw [hout]
      · -- red-black validity of the new root
        obtain ⟨cfN, hctxN⟩ := emplaceN_ctxRB v t.nextId
          (RNode.node j0 c0 x0 l0 r0) [] H Color.black Color.black hrb0 CtxRB.nil
          (fun _ => rfl) (fun _ => rfl) ctxNew hemp
        obtain ⟨c2, h2, hfix⟩ := fixupInsert_rb
          (RNode.node t.nextId Color.red v RNode.nil RNode.nil) ctxNew 0 cfN hctxN
          (Or.inl (IsRB.red IsRB.nil IsRB.nil))
        obtain ⟨H2, hrb2⟩ := setRootColor_black_isRB hfix
        refine ⟨H2, ?_⟩
        rw [hout]
        exact hrb2
      · rw [hout]

/-- Inserting a value equivalent to a present one mutates nothing and
reports the present node. -/
theorem insertV_dup_spec {cmp : α → α → Bool} (hswo : SWO cmp) {t : RbTree α}
    (hwf : WF cmp t) (v x₀ : α) (hmem : x₀ ∈ valsOf t.root)
    (h1 : cmp v x₀ = false) (h2 : cmp x₀ v = false) :
    (RbTree.insertV cmp t v).1 = t ∧
      ∃ j x, (RbTree.insertV cmp t v).2 = (Loc.ptr j, false) ∧
        (j, x) ∈ RNode.inorder t.root ∧ cmp v x = false ∧ cmp x v = false := by
  unfold WF at hwf
  obtain ⟨hch, _⟩ := hwf
  have hord : OrdT cmp t.root :=
    ordT_of_pairwise ((chain'_iff_pairwise hswo _).mp hch)
  rcases hroot : t.root with _ | ⟨j0, c0, x0r, l0, r0⟩
  · rw [hroot] at hmem
    simp [valsOf, RNode.inorder] at hmem
  · rw [hroot] at hord hmem
    obtain ⟨j, hj⟩ := emplaceN_dup_of_mem hswo v t.nextId hord x₀ hmem h1 h2 []
    have hout : RbTree.emplaceT cmp t v = (t, (j, true)) := by
      simp only [RbTree.emplaceT]
      rw [hroot]
      simp only [hj]
    obtain ⟨x, hmem2, hx1, hx2⟩ := emplaceN_dup_mem v t.nextId _
      (by intro hcon; exact RNode.noConfusion hcon) [] j hj
    refine ⟨?_, j, x, ?_, ?_, hx1, hx2⟩
    · show (RbTree.insertV cmp t v).1 = t
      simp [RbTree.insertV, hout]
    · simp [RbTree.insertV, hout]
    · exact hmem2

/-- A successful insert at the `insert` level: the `emplace_` effect
plus the `size_` bump and the returned (iterator, `true`). -/
theorem insertV_new_spec {cmp : α → α → Bool} (hswo : SWO cmp) {t : RbTree α}
    (hwf : WF cmp t) (v : α)
    (hno : ∀ x ∈ valsOf t.root, ¬(cmp v x = false ∧ cmp x v = false)) :
    ∃ L R,
      RNode.inorder t.root = L ++ R ∧
      RNode.inorder (RbTree.insertV cmp t v).1.root = L ++ (t.nextId, v) :: R ∧
      (List.map Prod.snd (L ++ (t.nextId, v) :: R)).Pairwise
        (fun a b => cmp a b = true) ∧
      (RbTree.insertV cmp t v).1.leftmost = headLoc (RbTree.insertV cmp t v).1.root ∧
      (RbTree.insertV cmp t v).1.size = t.size + 1 ∧
      (RbTree.insertV cmp t v).1.nextId = t.nextId + 1 ∧
      (∃ H2, IsRB (RbTree.insertV cmp t v).1.root Color.black H2) ∧
      (RbTree.insertV cmp t v).2 = (Loc.ptr t.nextId, true) := by
  obtain ⟨L, R, e1, e2, e3, e4, e5, e6, e7, e8⟩ := emplaceT_spec_new hswo t v hwf hno
  have hred : RbTree.insertV cmp t v =
      ({ root := (RbTree.emplaceT cmp t v).1.root,
         leftmost := (RbTree.emplaceT cmp t v).1.leftmost,
         size := (RbTree.emplaceT cmp t v).1.size + 1,
         nextId := (RbTree.emplaceT cmp t v).1.nextId },
       (Loc.ptr t.nextId, true)) := by
    simp [RbTree.insertV, e8]
  refine ⟨L, R, e1, ?_, e3, ?_, ?_, ?_, ?_, ?_⟩
  · rw [hred]
    exact e2
  · rw [hred]
    show (RbTree.emplaceT cmp t v).1.leftmost = _
    exact e4
  · rw [hred]
    show (RbTree.emplaceT cmp t v).1.size + 1 = _
    rw [e5]
  · rw [hred]
    show (RbTree.emplaceT cmp t v).1.nextId = _
    exact e6
  · obtain ⟨H2, hrb⟩ := e7
    refine ⟨H2, ?_⟩
    rw [hred]
    exact hrb
  · rw [hred]

/-- `insert` preserves the full invariant. -/
theorem wf_insertV {cmp : α → α → Bool} (hswo : SWO cmp) {t : RbTree α}
    (hwf : WF cmp t) (v : α) : WF cmp (RbTree.insertV cmp t v).1 := by
  by_cases hex : ∃ x₀ ∈ valsOf t.root, cmp v x₀ = false ∧ cmp x₀ v = false
  · obtain ⟨x₀, hmem, h1, h2⟩ := hex
    obtain ⟨heq, _⟩ := insertV_dup_spec hswo hwf v x₀ hmem h1 h2
    rw [heq]
    exact hwf
  · push_neg at hex
    have hex2 : ∀ x ∈ valsOf t.root, ¬(cmp v x = false ∧ cmp x v = false) := by
      intro x hx hc
      exact absurd hc.2 (hex x hx hc.1)
    obtain ⟨L, R, e1, e2, e3, e4, e5, e6, ⟨H2, hrb2⟩, _⟩ :=
      insertV_new_spec hswo hwf v hex2
    unfold WF at hwf ⊢
    obtain ⟨hch, hnd, hbh, hnr, hrbk, hlm, hsz, hidb⟩ := hwf
    obtain ⟨k1, k2, k3⟩ := (rb_checkers_iff _).mpr ⟨H2, hrb2⟩
    refine ⟨?_, ?_, k1, k2, k3, e4, ?_, ?_⟩
    · rw [chain'_iff_pairwise hswo]
      show (List.map Prod.snd (RNode.inorder _)).Pairwise _
      rw [e2]
      exact e3
    · show (List.map Prod.fst (RNode.inorder _)).Nodup
      rw [e2]
      exact nodup_mid (by rw [← e1]; exact hnd) (fresh_not_mem hidb e1)
    · rw [e5, e2, hsz, e1]
      simp only [List.length_append, List.length_cons]
      omega
    · intro k hk
      rw [e6]
      have hk2 : k ∈ List.map Prod.fst (RNode.inorder (RbTree.insertV cmp t v).1.root) := hk
      rw [e2] at hk2
      simp only [List.map_append, List.map_cons, List.mem_append, List.mem_cons] at hk2
      rcases hk2 with hk2 | hk2 | hk2
      · have : k ∈ idsOf t.root := by
          show k ∈ List.map Prod.fst (RNode.inorder t.root)
          rw [e1]
          simp only [List.map_append, List.mem_append]
          exact Or.inl hk2
        have := hidb k this
        omega
      · omega
      · have : k ∈ idsOf t.root := by
          show k ∈ List.map Prod.fst (RNode.inorder t.root)
          rw [e1]
          simp only [List.map_append, List.mem_append]
          exact Or.inr hk2
        have := hidb k this
        omega

/-- The full effect of `delete_` at address `i` on a tree with distinct
addresses and a correct `leftmost_` cache: exactly the target entry is
removed from the in-order sequence, `leftmost_` stays the minimum, and
`size_` and the allocation counter are untouched. -/
theorem deleteById_spec (t : RbTree α) (i : Nat)
    (hmem : i ∈ idsOf t.root) (hnd : (idsOf t.root).Nodup)
    (hlm : t.leftmost = headLoc t.root) :
    ∃ (L R : List (Nat × α)) (v : α),
      RNode.inorder t.root = L ++ (i, v) :: R ∧
      RNode.inorder (RbTree.deleteById t i).root = L ++ R ∧
      (RbTree.deleteById t i).leftmost = headLoc (RbTree.deleteById t i).root ∧
      (RbTree.deleteById t i).size = t.size ∧
      (RbTree.deleteById t i).nextId = t.nextId := by
  have hz := zipTo_mem i t.root [] hmem
  cases hzip : zipTo i t.root [] with
  | none =>
    rw [hzip] at hz
    simp at hz
  | some res =>
    obtain ⟨n, ctx⟩ := res
    obtain ⟨hplugeq, hid, hnn⟩ := zipTo_spec i t.root [] n ctx hzip
    rcases n with _ | ⟨j, c, v, l, r⟩
    · exact absurd rfl hnn
    have hj : j = i := hid
    subst hj
    have hpe : plug ctx (RNode.node j c v l r) = t.root := hplugeq
    have hroot : RNode.inorder t.root =
        (ctxLo ctx ++ RNode.inorder l) ++ (j, v) ::
          (RNode.inorder r ++ ctxHi ctx) := by
      rw [← hpe]
      simp [plug_inorder, RNode.inorder, List.append_assoc]
    have hlmloc : (if t.leftmost = Loc.ptr j then nextZ (RNode.node j c v l r) ctx
        else t.leftmost) =
        headLocL ((ctxLo ctx ++ RNode.inorder l) ++
          (RNode.inorder r ++ ctxHi ctx)) := by
      by_cases hteq : t.leftmost = Loc.ptr j
      · rw [if_pos hteq]
        cases hLL : (ctxLo ctx ++ RNode.inorder l) with
        | cons p LL2 =>
          exfalso
          obtain ⟨p1, p2⟩ := p
          have hph : t.leftmost = Loc.ptr p1 := by
            rw [hlm, headLoc_eq, hroot, hLL]
            rfl
          rw [hteq] at hph
          have hpj : p1 = j := by
            injection hph with hph2
            exact hph2.symm
          subst hpj
          have hnd2 := hnd
          rw [show idsOf t.root = List.map Prod.fst (RNode.inorder t.root) from rfl,
            hroot, hLL] at hnd2
          simp only [List.cons_append, List.map_cons, List.nodup_cons] at hnd2
          apply hnd2.1
          simp
        | nil =>
          rw [nextZ_spec]
          rfl
      · rw [if_neg hteq]
        cases hLL : (ctxLo ctx ++ RNode.inorder l) with
        | nil =>
          exfalso
          apply hteq
          rw [hlm, headLoc_eq, hroot, hLL]
          rfl
        | cons p LL2 =>
          obtain ⟨p1, p2⟩ := p
          rw [hlm, headLoc_eq, hroot, hLL]
          rfl
    have hio2 : RNode.inorder (RbTree.deleteById t j).root =
        (ctxLo ctx ++ RNode.inorder l) ++ (RNode.inorder r ++ ctxHi ctx) := by
      simp only [RbTree.deleteById, hzip]
      by_cases hlr : (l.isNil || r.isNil) = true
      · simp only [hlr, if_true]
        rw [spliceFix_inorder, plug_inorder]
        rcases l with _ | ⟨li, lc, lv, l1, l2⟩
        · simp [RNode.isNil, RNode.inorder, List.append_assoc]
        · have hr : r = RNode.nil := by
            rcases r with _ | ⟨ri2, rc2, rv2, r1, r2⟩
            · rfl
            · simp [RNode.isNil] at hlr
          subst hr
          simp [RNode.isNil, RNode.inorder, List.append_assoc]
      · have hlnil : l ≠ RNode.nil := by
          intro h
          subst h
          simp [RNode.isNil] at hlr
        have hrnil : r ≠ RNode.nil := by
          intro h
          subst h
          simp [RNode.isNil] at hlr
        obtain ⟨yi, yc, yv, yr, hy⟩ := minN_shape r hrnil
        have hlrf : (l.isNil || r.isNil) = false := by
          simp only [Bool.or_eq_false_iff]
          constructor
          · rcases l with _ | _
            · exact absurd rfl hlnil
            · rfl
          · rcases r with _ | _
            · exact absurd rfl hrnil
            · rfl
        simp only [hlrf, Bool.false_eq_true, if_false, hy]
        obtain ⟨hhead, hplug2⟩ :=
          minZipC_remove r (⟨Side.r, yi, c, yv, l⟩ :: ctx) yi yc yv yr hy
        rw [spliceFix_inorder, hplug2]
        conv_rhs => rw [hhead]
        simp [ctxLo, ctxHi, RNode.inorder, List.append_assoc]
    have hlmfin : (RbTree.deleteById t j).leftmost =
        headLoc (RbTree.deleteById t j).root := by
      rw [headLoc_eq, hio2]
      simp only [RbTree.deleteById, hzip]
      exact hlmloc
    refine ⟨ctxLo ctx ++ RNode.inorder l, RNode.inorder r ++ ctxHi ctx, v,
      ?_, hio2, hlmfin, ?_, ?_⟩
    · rw [hroot]
    · simp only [RbTree.deleteById, hzip]
    · simp only [RbTree.deleteById, hzip]

/-- Each mutating operation of the step relation preserves the
invariant. -/
theorem wf_applyOp {cmp : α → α → Bool} (hswo : SWO cmp) {t : RbTree α}
    (hwf : WF cmp t) (o : Op α) : WF cmp (applyOp cmp t o) := by
  cases o with
  | ins v =>
    show WF cmp (RbTree.insertV cmp t v).1
    exact wf_insertV hswo hwf v
  | del i =>
    by_cases hmem : i ∈ idsOf t.root
    · have hwf2 := hwf
      unfold WF at hwf2
      obtain ⟨hch, hnd, hbh, hnr, hrbk, hlm, hsz, hidb⟩ := hwf2
      have herase : RbTree.eraseIter t 0 { node := Loc.ptr i, home := 0 } =
          Except.ok
            { root := (RbTree.deleteById t i).root,
              leftmost := (RbTree.deleteById t i).leftmost,
              size := (RbTree.deleteById t i).size - 1,
              nextId := (RbTree.deleteById t i).nextId } := by
        simp [RbTree.eraseIter]
      have happ : applyOp cmp t (Op.del i) =
          { root := (RbTree.deleteById t i).root,
            leftmost := (RbTree.deleteById t i).leftmost,
            size := (RbTree.deleteById t i).size - 1,
            nextId := (RbTree.deleteById t i).nextId } := by
        simp only [applyOp, if_pos hmem, herase]
      rw [happ]
      obtain ⟨L, R, w, hd1, hd2, hdlm, hdsz, hdnx⟩ := deleteById_spec t i hmem hnd hlm
      obtain ⟨H, hrb⟩ := (rb_checkers_iff t.root).mp ⟨hbh, hnr, hrbk⟩
      obtain ⟨H2, hrb2⟩ := deleteById_rb t i hrb
      obtain ⟨k1, k2, k3⟩ := (rb_checkers_iff _).mpr ⟨H2, hrb2⟩
      have hsub : (L ++ R).Sublist (L ++ (i, w) :: R) :=
        List.Sublist.append_left (List.sublist_cons_self _ _) L
      unfold WF
      refine ⟨?_, ?_, k1, k2, k3, hdlm, ?_, ?_⟩
      · rw [chain'_iff_pairwise hswo] at hch ⊢
        show (List.map Prod.snd (RNode.inorder _)).Pairwise _
        rw [hd2]
        have hold : (List.map Prod.snd (L ++ (i, w) :: R)).Pairwise
            (fun a b => cmp a b = true) := by
          show (List.map Prod.snd (L ++ (i, w) :: R)).Pairwise _
          rw [← hd1]
          exact hch
        exact hold.sublist (hsub.map Prod.snd)
      · show (List.map Prod.fst (RNode.inorder _)).Nodup
        rw [hd2]
        have hold : (List.map Prod.fst (L ++ (i, w) :: R)).Nodup := by
          show (List.map Prod.fst (L ++ (i, w) :: R)).Nodup
          rw [← hd1]
          exact hnd
        exact hold.sublist (hsub.map Prod.fst)
      · show (RbTree.deleteById t i).size - 1 = (RNode.inorder _).length
        rw [hdsz, hd2, hsz, hd1]
        simp only [List.length_append, List.length_cons]
        omega
      · intro k hk
        show k < (RbTree.deleteById t i).nextId
        rw [hdnx]
        apply hidb
        have hk2 : k ∈ List.map Prod.fst (RNode.inorder (RbTree.deleteById t i).root) := hk
        rw [hd2] at hk2
        show k ∈ List.map Prod.fst (RNode.inorder t.root)
        rw [hd1]
        exact (hsub.map Prod.fst).mem hk2
    · simp only [applyOp, if_neg hmem]
      exact hwf

/-- Every reachable tree satisfies the full invariant. -/
theorem wf_reach {cmp : α → α → Bool} (hswo : SWO cmp) {t : RbTree α}
    (hre : Reach cmp t) : WF cmp t := by
  induction hre with
  | init => exact wf_mk0
  | step o hre ih => exact wf_applyOp hswo ih o
  | clearStep hre ih => exact wf_clear _
  | assignStep supply hre ih => exact wf_assign ih supply

theorem reach_applyOps {cmp : α → α → Bool} (ops : List (Op α)) :
    ∀ t : RbTree α, Reach cmp t → Reach cmp (applyOps cmp ops t) := by
  induction ops with
  | nil =>
    intro t h
    exact h
  | cons o rest ih =>
    intro t h
    exact ih _ (Reach.step o h)

end WFPreservation

section FindLemmas

variable {α : Type}

/-- On an ordered tree, `Node::find` locates the entry holding any value
equivalent to the probe. -/
theorem findN_found {cmp : α → α → Bool} (hswo : SWO cmp) {t : RNode α}
    (hord : OrdT cmp t) :
    ∀ (k : α) (j : Nat) (x : α), (j, x) ∈ RNode.inorder t →
      cmp k x = false → cmp x k = false → findN cmp cmp k t = some j := by
  induction hord with
  | nil =>
    intro k j x h
    simp [RNode.inorder] at h
  | @node i c v l r hl hr hbl hbr ihl ihr =>
    intro k j x hmem h1 h2
    simp only [RNode.inorder, List.mem_append, List.mem_cons] at hmem
    by_cases hkv : cmp k v = true
    · have hxl : (j, x) ∈ RNode.inorder l := by
        rcases hmem with h | h | h
        · exact h
        · exfalso
          rw [Prod.mk.injEq] at h
          rw [h.2] at h1
          rw [hkv] at h1
          exact Bool.noConfusion h1
        · exfalso
          have hx : x ∈ valsOf r := List.mem_map_of_mem Prod.snd h
          have hvx : cmp v x = true := hbr x hx
          have : cmp k x = true := hswo.trans hkv hvx
          rw [this] at h1
          exact Bool.noConfusion h1
      cases l with
      | nil => simp [RNode.inorder] at hxl
      | node li lc lv la lb =>
        rw [findN.eq_def]
        simp only []
        rw [if_neg (by simp [hkv]), if_pos hkv]
        exact ihl k j x hxl h1 h2
    · by_cases hvk : cmp v k = true
      · have hkvf : cmp k v = false := bool_not_true hkv
        have hxr : (j, x) ∈ RNode.inorder r := by
          rcases hmem with h | h | h
          · exfalso
            have hx : x ∈ valsOf l := List.mem_map_of_mem Prod.snd h
            have hxv : cmp x v = true := hbl x hx
            have : cmp x k = true := hswo.trans hxv hvk
            rw [this] at h2
            exact Bool.noConfusion h2
          · exfalso
            rw [Prod.mk.injEq] at h
            rw [h.2] at h2
            rw [hvk] at h2
            exact Bool.noConfusion h2
          · exact h
        cases r with
        | nil => simp [RNode.inorder] at hxr
        | node ri rc rv ra rb =>
          rw [findN.eq_def]
          simp only []
          rw [if_neg (by simp [hvk]), if_neg (by simp [hkvf])]
          exact ihr k j x hxr h1 h2
      · have hkvf : cmp k v = false := bool_not_true hkv
        have hvkf : cmp v k = false := bool_not_true hvk
        have hjx : (j, x) = (i, v) := by
          rcases hmem with h | h | h
          · exfalso
            have hx : x ∈ valsOf l := List.mem_map_of_mem Prod.snd h
            have hxv : cmp x v = true := hbl x hx
            have hcon := hswo.negtrans x k v h2 hkvf
            rw [hxv] at hcon
            exact Bool.noConfusion hcon
          · exact h
          · exfalso
            have hx : x ∈ valsOf r := List.mem_map_of_mem Prod.snd h
            have hvx : cmp v x = true := hbr x hx
            have hcon := hswo.negtrans v k x hvkf h1
            rw [hvx] at hcon
            exact Bool.noConfusion hcon
        rw [Prod.mk.injEq] at hjx
        rw [findN.eq_def]
        simp only []
        rw [if_pos (by simp [hkvf, hvkf])]
        rw [hjx.1]

/-- On an ordered tree with no entry equivalent to the probe,
`Node::find` fails. -/
theorem findN_absent {cmp : α → α → Bool} {t : RNode α} (hord : OrdT cmp t) (k : α)
    (hno : ∀ x ∈ valsOf t, cmp k x = true ∨ cmp x k = true) :
    findN cmp cmp k t = none := by
  induction hord with
  | nil => rfl
  | @node i c v l r hl hr hbl hbr ihl ihr =>
    have hv := hno v (by rw [valsOf_node]; simp)
    have hcond : (!(cmp k v) && !(cmp v k)) = false := by
      rcases hv with h | h <;> simp [h]
    have hcondp : ¬((!(cmp k v) && !(cmp v k)) = true) := by
      rw [hcond]
      simp
    rw [findN.eq_def]
    simp only []
    rw [if_neg hcondp]
    by_cases hkv : cmp k v = true
    · rw [if_pos hkv]
      cases l with
      | nil => rfl
      | node li lc lv la lb =>
        exact ihl (fun x hx => hno x (by rw [valsOf_node]; exact List.mem_append.mpr (Or.inl hx)))
    · rw [if_neg hkv]
      cases r with
      | nil => rfl
      | node ri rc rv ra rb =>
        exact ihr (fun x hx => hno x (by
          rw [valsOf_node]
          exact List.mem_append.mpr (Or.inr (List.mem_cons.mpr (Or.inr hx)))))

end FindLemmas

section Claims

/-! Concrete instances used by the witnesses. -/

def T2 : RbTree Nat := applyOps natLt [Op.ins 5] RbTree.mk0

def T3 : RbTree Nat := applyOps natLt [Op.ins 1, Op.ins 2] RbTree.mk0

def T5 : RbTree Nat := applyOps natLt [Op.ins 2, Op.ins 1] RbTree.mk0

def M10 : RbTree (Nat × Nat) := applyOps (pairCmp natLt) [Op.ins (1, 10)] RbTree.mk0

def T3e : RbTree Nat :=
  { root := RNode.node 1 Color.black 2 RNode.nil RNode.nil,
    leftmost := Loc.ptr 1, size := 1, nextId := 2 }

theorem reachT2 : Reach natLt T2 := Reach.step (Op.ins 5) Reach.init

theorem reachT3 : Reach natLt T3 :=
  Reach.step (Op.ins 2) (Reach.step (Op.ins 1) Reach.init)

theorem reachT5 : Reach natLt T5 :=
  Reach.step (Op.ins 1) (Reach.step (Op.ins 2) Reach.init)

theorem reachM10 : Reach (pairCmp natLt) M10 := Reach.step (Op.ins (1, 10)) Reach.init

/-- C1: for every sequence of inserts and erases starting from the empty
tree, the resulting state (hence the state after each operation of any
sequence) has a strictly increasing in-order value sequence, a black
root, no red node with a red child, and a consistent black-height on
all root-to-null paths. -/
theorem spec_C1 {α : Type} {cmp : α → α → Bool} (hswo : SWO cmp) (ops : List (Op α)) :
    List.Chain' (fun a b => cmp a b = true)
        (valsOf (applyOps cmp ops RbTree.mk0).root) ∧
      rootBlackB (applyOps cmp ops RbTree.mk0).root = true ∧
      noRedRedB (applyOps cmp ops RbTree.mk0).root = true ∧
      (bhOf (applyOps cmp ops RbTree.mk0).root).isSome = true := by
  have hwf := wf_reach hswo (reach_applyOps ops RbTree.mk0 Reach.init)
  unfold WF at hwf
  obtain ⟨hch, _, hbh, hnr, hrbk, _, _, _⟩ := hwf
  exact ⟨hch, hrbk, hnr, hbh⟩

theorem spec_C1_witness :
    List.Chain' (fun a b => natLt a b = true)
        (valsOf (applyOps natLt [Op.ins 2, Op.ins 1, Op.ins 3, Op.del 0]
          RbTree.mk0).root) ∧
      rootBlackB (applyOps natLt [Op.ins 2, Op.ins 1, Op.ins 3, Op.del 0]
        RbTree.mk0).root = true ∧
      noRedRedB (applyOps natLt [Op.ins 2, Op.ins 1, Op.ins 3, Op.del 0]
        RbTree.mk0).root = true ∧
      (bhOf (applyOps natLt [Op.ins 2, Op.ins 1, Op.ins 3, Op.del 0]
        RbTree.mk0).root).isSome = true :=
  spec_C1 swo_natLt [Op.ins 2, Op.ins 1, Op.ins 3, Op.del 0]

/-- C2: inserting a value equivalent to a present element returns the
pair (pointer to the present element, `false`) and performs no mutation:
the tree state — size, contents, in-order sequence, hence all iterators
— is exactly the one before the call. -/
theorem spec_C2 {α : Type} {cmp : α → α → Bool} (hswo : SWO cmp) {t : RbTree α}
    (hre : Reach cmp t) (v x₀ : α) (hmem : x₀ ∈ valsOf t.root)
    (h1 : cmp v x₀ = false) (h2 : cmp x₀ v = false) :
    (RbTree.insertV cmp t v).1 = t ∧
      (RbTree.insertV cmp t v).2.2 = false ∧
      ∃ j x, (RbTree.insertV cmp t v).2.1 = Loc.ptr j ∧
        (j, x) ∈ RNode.inorder t.root ∧ cmp v x = false ∧ cmp x v = false := by
  obtain ⟨heq, j, x, hsnd, hm, hx1, hx2⟩ :=
    insertV_dup_spec hswo (wf_reach hswo hre) v x₀ hmem h1 h2
  refine ⟨heq, ?_, j, x, ?_, hm, hx1, hx2⟩
  · rw [hsnd]
  · rw [hsnd]

theorem spec_C2_witness :
    (RbTree.insertV natLt T2 5).1 = T2 ∧
      (RbTree.insertV natLt T2 5).2.2 = false ∧
      ∃ j x, (RbTree.insertV natLt T2 5).2.1 = Loc.ptr j ∧
        (j, x) ∈ RNode.inorder T2.root ∧ natLt 5 x = false ∧ natLt x 5 = false :=
  spec_C2 swo_natLt reachT2 5 5 (by decide) (by decide) (by decide)

/-- C3: `find` walks the probe-vs-node trichotomy: it returns the
pointer of the entry holding a value equivalent to the probe when one
exists, and the end pointer when no value is equivalent, in particular
on an empty tree. -/
theorem spec_C3 {α : Type} {cmp : α → α → Bool} (hswo : SWO cmp) {t : RbTree α}
    (hre : Reach cmp t) (k : α) :
    (∀ j x, (j, x) ∈ RNode.inorder t.root → cmp k x = false → cmp x k = false →
        RbTree.findK cmp cmp t k = Loc.ptr j) ∧
      ((∀ x ∈ valsOf t.root, cmp k x = true ∨ cmp x k = true) →
        RbTree.findK cmp cmp t k = Loc.endp) ∧
      (t.root = RNode.nil → RbTree.findK cmp cmp t k = Loc.endp) := by
  have hwf := wf_reach hswo hre
  unfold WF at hwf
  obtain ⟨hch, _, _, _, _, _, hsz, _⟩ := hwf
  have hord : OrdT cmp t.root :=
    ordT_of_pairwise ((chain'_iff_pairwise hswo _).mp hch)
  refine ⟨?_, ?_, ?_⟩
  · intro j x hmem h1 h2
    have hsz0 : ¬ t.size = 0 := by
      rw [hsz]
      intro hc
      rw [List.length_eq_zero] at hc
      rw [hc] at hmem
      simp at hmem
    simp only [RbTree.findK, if_neg hsz0]
    rw [findN_found hswo hord k j x hmem h1 h2]
  · intro hno
    by_cases hsz0 : t.size = 0
    · simp only [RbTree.findK, if_pos hsz0]
    · simp only [RbTree.findK, if_neg hsz0]
      rw [findN_absent hord k hno]
  · intro hnil
    by_cases hsz0 : t.size = 0
    · simp only [RbTree.findK, if_pos hsz0]
    · simp only [RbTree.findK, if_neg hsz0, hnil]
      rfl

theorem spec_C3_witness :
    RbTree.findK natLt natLt T3 1 = Loc.ptr 0 ∧
      RbTree.findK natLt natLt T3 5 = Loc.endp :=
  ⟨(spec_C3 swo_natLt reachT3 1).1 0 1 (by decide) (by decide) (by decide),
   (spec_C3 swo_natLt reachT3 5).2.1 (by decide)⟩

/-- C4: `erase(iterator)` raises the invalid-iterator error exactly when
the iterator denotes the end node or belongs to another tree instance;
the error is raised before any mutation, so the failing call returns no
modified tree at all. -/
theorem spec_C4 {α : Type} (t : RbTree α) (selfAddr : Nat) (pos : Iter) :
    RbTree.eraseIter t selfAddr pos = Except.error TreeErr.invalidIterator ↔
      (pos.node = Loc.endp ∨ pos.home ≠ selfAddr) := by
  constructor
  · intro h
    by_contra hc
    rw [not_or] at hc
    obtain ⟨h1, h2⟩ := hc
    simp only [RbTree.eraseIter, if_neg (not_or.mpr ⟨h1, h2⟩)] at h
    cases hn : pos.node with
    | endp => exact h1 hn
    | ptr i =>
      rw [hn] at h
      exact Except.noConfusion h
  · intro h
    simp only [RbTree.eraseIter, if_pos h]

/-- C5: after every reachable public operation the cached `leftmost_`
pointer is the head of the in-order sequence: a pointer to the minimum
real node, or the end pointer when the tree is empty; `begin()` is built
from exactly this pointer. -/
theorem spec_C5 {α : Type} {cmp : α → α → Bool} (hswo : SWO cmp) {t : RbTree α}
    (hre : Reach cmp t) :
    t.leftmost = headLoc t.root ∧
      (RNode.inorder t.root = [] → t.leftmost = Loc.endp) ∧
      ∀ j x tl, RNode.inorder t.root = (j, x) :: tl → t.leftmost = Loc.ptr j := by
  have hwf := wf_reach hswo hre
  unfold WF at hwf
  obtain ⟨_, _, _, _, _, hlm, _, _⟩ := hwf
  refine ⟨hlm, ?_, ?_⟩
  · intro h
    rw [hlm, headLoc_eq, h]
    rfl
  · intro j x tl h
    rw [hlm, headLoc_eq, h]
    rfl

theorem spec_C5_witness :
    T5.leftmost = headLoc T5.root ∧ T5.leftmost = Loc.ptr 1 :=
  ⟨(spec_C5 swo_natLt reachT5).1,
   (spec_C5 swo_natLt reachT5).2.2 1 1 [(0, 2)] (by decide)⟩

/-- C6: copy-assignment deep-clones the tree: same size, same value
sequence, identical topology and colors (only the addresses are fresh),
`leftmost_` recomputed as the clone's minimum; with fresh addresses
drawn past the source's allocation counter, the clone shares no node
with the source, which models the independence of the two copies. -/
theorem spec_C6 {α : Type} {cmp : α → α → Bool} (hswo : SWO cmp) {s : RbTree α}
    (hre : Reach cmp s) (supply : Nat) (hsup : s.nextId ≤ supply) :
    (RbTree.assign s supply).size = s.size ∧
      valsOf (RbTree.assign s supply).root = valsOf s.root ∧
      eraseIds (RbTree.assign s supply).root = eraseIds s.root ∧
      (RbTree.assign s supply).leftmost = headLoc (RbTree.assign s supply).root ∧
      ∀ i ∈ idsOf (RbTree.assign s supply).root, i ∉ idsOf s.root := by
  have hwf := wf_reach hswo hre
  unfold WF at hwf
  obtain ⟨_, _, _, _, _, _, _, hidb⟩ := hwf
  refine ⟨rfl, ?_, ?_, assign_leftmost s supply, ?_⟩
  · show valsOf (cloneN s.root supply).1 = _
    exact cloneN_vals s.root supply
  · show eraseIds (cloneN s.root supply).1 = _
    exact cloneN_shape s.root supply
  · intro i hi hicon
    have h1 := ((cloneN_ids s.root supply).2.1 i hi).1
    have h2 := hidb i hicon
    omega

theorem spec_C6_witness :
    (RbTree.assign T3 5).size = T3.size ∧
      valsOf (RbTree.assign T3 5).root = valsOf T3.root ∧
      (5 : Nat) ∉ idsOf T3.root :=
  ⟨(spec_C6 swo_natLt reachT3 5 (by decide)).1,
   (spec_C6 swo_natLt reachT3 5 (by decide)).2.1,
   (spec_C6 swo_natLt reachT3 5 (by decide)).2.2.2.2 5 (by decide)⟩

/-- C7: on every reachable state `size_` equals the number of real
nodes, i.e. the length of the in-order (begin-to-end) sequence, and
`empty()` (`size_ == 0`) holds exactly when that sequence is empty. -/
theorem spec_C7 {α : Type} {cmp : α → α → Bool} (hswo : SWO cmp) {t : RbTree α}
    (hre : Reach cmp t) :
    t.size = (RNode.inorder t.root).length ∧
      (RbTree.emptyB t = true ↔ RNode.inorder t.root = []) := by
  have hwf := wf_reach hswo hre
  unfold WF at hwf
  obtain ⟨_, _, _, _, _, _, hsz, _⟩ := hwf
  refine ⟨hsz, ?_⟩
  show (t.size == 0) = true ↔ _
  rw [Nat.beq_eq_true_eq, hsz, List.length_eq_zero]

theorem spec_C7_witness :
    T3.size = (RNode.inorder T3.root).length ∧
      (RbTree.emptyB T3 = true ↔ RNode.inorder T3.root = []) :=
  spec_C7 swo_natLt reachT3

/-- C8: advancing the end iterator and retreating an iterator at the
cached `leftmost_` (the begin position) raise the invalid-iterator
error, in both the prefix and the postfix forms (the `iterator` and
`const_iterator` bodies in the source are character-for-character the
same tests, transcribed once). -/
theorem spec_C8 {α : Type} (t : RbTree α) (it : Iter) :
    (it.node = Loc.endp →
      RbTree.incIter t it = Except.error TreeErr.invalidIterator ∧
        RbTree.incIterPost t it = Except.error TreeErr.invalidIterator) ∧
    (it.node = t.leftmost →
      RbTree.decIter t it = Except.error TreeErr.invalidIterator ∧
        RbTree.decIterPost t it = Except.error TreeErr.invalidIterator) := by
  constructor
  · intro h
    have h1 : RbTree.incIter t it = Except.error TreeErr.invalidIterator := by
      simp [RbTree.incIter, h]
    exact ⟨h1, by simp [RbTree.incIterPost, h1]⟩
  · intro h
    have h1 : RbTree.decIter t it = Except.error TreeErr.invalidIterator := by
      simp [RbTree.decIter, h]
    exact ⟨h1, by simp [RbTree.decIterPost, h1]⟩

theorem spec_C8_witness :
    (RbTree.incIter T3 { node := Loc.endp, home := 0 } =
        Except.error TreeErr.invalidIterator ∧
      RbTree.incIterPost T3 { node := Loc.endp, home := 0 } =
        Except.error TreeErr.invalidIterator) ∧
    (RbTree.decIter T3 { node := Loc.ptr 0, home := 0 } =
        Except.error TreeErr.invalidIterator ∧
      RbTree.decIterPost T3 { node := Loc.ptr 0, home := 0 } =
        Except.error TreeErr.invalidIterator) :=
  ⟨(spec_C8 T3 { node := Loc.endp, home := 0 }).1 rfl,
   (spec_C8 T3 { node := Loc.ptr 0, home := 0 }).2 (by decide)⟩

/-- C9: a successful `erase` removes exactly the erased entry from the
in-order sequence: every other element keeps its address and its value
(values are never moved between nodes — splicing and rotation only
rewire links), so every iterator to another element still denotes the
same element afterwards. -/
theorem spec_C9 {α : Type} (t t2 : RbTree α) (selfAddr i : Nat)
    (hok : RbTree.eraseIter t selfAddr { node := Loc.ptr i, home := selfAddr } =
      Except.ok t2)
    (hmem : i ∈ idsOf t.root) :
    ∃ L R v, RNode.inorder t.root = L ++ (i, v) :: R ∧
      RNode.inorder t2.root = L ++ R := by
  have hco : ¬((Loc.ptr i : Loc) = Loc.endp ∨ selfAddr ≠ selfAddr) := by simp
  have hroot : t2.root = (RbTree.deleteById t i).root := by
    simp only [RbTree.eraseIter, if_neg hco] at hok
    injection hok with h2
    rw [← h2]
  obtain ⟨L, R, v, h1, h2⟩ := deleteById_inorder t i hmem
  exact ⟨L, R, v, h1, by rw [hroot]; exact h2⟩

theorem spec_C9_witness :
    ∃ L R v, RNode.inorder T3.root = L ++ ((0 : Nat), v) :: R ∧
      RNode.inorder T3e.root = L ++ R :=
  spec_C9 T3 T3e 7 0 rfl (by decide)

/-- C10: `map::operator[]` on a key already present returns the stored
mapped value and leaves the map unchanged: the probe pair built from the
default-constructed value is discarded by the duplicate check inside
`insert`, so the stored value is not overwritten. -/
theorem spec_C10 {κ V : Type} {cmp : κ → κ → Bool} (hswo : SWO cmp)
    {m : RbTree (κ × V)} (hre : Reach (pairCmp cmp) m) (k : κ) (dflt : V)
    (j₀ : Nat) (p₀ : κ × V) (hmem : (j₀, p₀) ∈ RNode.inorder m.root)
    (h1 : cmp k p₀.1 = false) (h2 : cmp p₀.1 k = false) :
    (mapSubscript cmp m k dflt).1 = m ∧
      (mapSubscript cmp m k dflt).2 = some p₀.2 := by
  have hswo2 : SWO (pairCmp (V := V) cmp) := swo_pairCmp hswo
  have hwf := wf_reach hswo2 hre
  have hwf2 := hwf
  unfold WF at hwf2
  obtain ⟨hch, hnd, _, _, _, _, _, _⟩ := hwf2
  have hmemv : p₀ ∈ valsOf m.root := List.mem_map_of_mem Prod.snd hmem
  have hp1 : pairCmp cmp (k, dflt) p₀ = false := h1
  have hp2 : pairCmp cmp p₀ (k, dflt) = false := h2
  obtain ⟨heq, j, x, hsnd, hmem2, hx1, hx2⟩ :=
    insertV_dup_spec hswo2 hwf (k, dflt) p₀ hmemv hp1 hp2
  have hpw : (valsOf m.root).Pairwise (fun a b => pairCmp cmp a b = true) :=
    (chain'_iff_pairwise hswo2 _).mp hch
  have hxm : x ∈ valsOf m.root := List.mem_map_of_mem Prod.snd hmem2
  have hxp1 : pairCmp cmp x p₀ = false := hswo.negtrans x.1 k p₀.1 hx2 h1
  have hxp2 : pairCmp cmp p₀ x = false := hswo.negtrans p₀.1 k x.1 h2 hx1
  have hxeq : x = p₀ := pairwise_unique hpw hxm hmemv
    (by rw [hxp1]; simp) (by rw [hxp2]; simp)
  subst hxeq
  refine ⟨?_, ?_⟩
  · show (RbTree.insertV (pairCmp cmp) m (k, dflt)).1 = m
    exact heq
  · obtain ⟨c2, l2, r2, hsubT⟩ := mem_inorder_subtree hmem2
    have hget : getN m.root j = some (RNode.node j c2 x l2 r2) :=
      getN_spec hnd hsubT (by intro hcon; exact RNode.noConfusion hcon)
    simp only [mapSubscript, hsnd, heq, hget]

theorem spec_C10_witness :
    (mapSubscript natLt M10 1 99).1 = M10 ∧
      (mapSubscript natLt M10 1 99).2 = some 10 :=
  spec_C10 swo_natLt reachM10 1 99 0 (1, 10) (by decide) (by decide) (by decide)

end Claims

end FakeStl
